import Mathlib

/-!
Verification development for the PPT-to-eBook conversion pipeline
(`src/app.py`).  Python strings are modelled as `List Char`, Python float
arithmetic on image dimensions as exact rational arithmetic over `ℚ`, and
Python dicts (used for the per-slide image map, which preserves key insertion
order) as association lists.  Fallible collaborator calls (PIL image decoding,
the generative-text call) are outside the modelled core, matching the spec's
collaborator boundary.
-/

/-! ### Python string primitives on `List Char` -/

/-- Whitespace characters stripped by Python `str.strip()` (ASCII set). -/
def isSpaceChar (c : Char) : Bool :=
  c == ' ' || c == '\t' || c == '\n' || c == '\r' || c == '\x0b' || c == '\x0c'

/-- Python `str.lstrip()` with no argument. -/
def lstripWs (l : List Char) : List Char := l.dropWhile isSpaceChar

/-- Python `str.rstrip()` with no argument. -/
def rstripWs (l : List Char) : List Char := (l.reverse.dropWhile isSpaceChar).reverse

/-- Python `str.strip()` with no argument. -/
def stripWs (l : List Char) : List Char := rstripWs (lstripWs l)

/-- Python `str.lstrip(set)`: drop leading characters belonging to `set`. -/
def lstripSet (set : List Char) (l : List Char) : List Char :=
  l.dropWhile (fun c => set.contains c)

/-- Python `str.startswith(p)` for `p` the first argument. -/
def hasPrefixL : List Char → List Char → Bool
  | [], _ => true
  | _ :: _, [] => false
  | p :: ps, c :: cs => p == c && hasPrefixL ps cs

/-- Python `str.lower()` (ASCII case folding, via `Char.toLower`). -/
def lowerL (l : List Char) : List Char := l.map Char.toLower

/-- Python `s.split('\n')`; on the empty string this yields `[[]]`,
matching `''.split('\n') == ['']`. -/
def splitNl : List Char → List (List Char)
  | [] => [[]]
  | c :: rest =>
    if c = '\n' then [] :: splitNl rest
    else
      match splitNl rest with
      | [] => [[c]]
      | s :: ss => (c :: s) :: ss

/-- Python `'\n'.join(lines)`. -/
def joinNl : List (List Char) → List Char
  | [] => []
  | [a] => a
  | a :: b :: rest => a ++ '\n' :: joinNl (b :: rest)

/-- Number of leading `'#'` characters of a line
(the `hash_count` loop of `_clean_ai_response`). -/
def countHash (s : List Char) : Nat := (s.takeWhile (fun c => c == '#')).length

/-! ### `_clean_ai_response` (src/app.py lines 240-314) -/

/-- The `unwanted_phrases` list of `_clean_ai_response`, verbatim. -/
def unwantedPhrases : List (List Char) :=
  ["Of course. Here is a comprehensive eBook chapter".data,
   "Here is a comprehensive eBook chapter".data,
   "Of course! Here is a comprehensive eBook chapter".data,
   "Here is a well-structured eBook chapter".data,
   "Of course. Here is a well-structured eBook chapter".data,
   "Here's a comprehensive eBook chapter".data,
   "Of course! Here's a comprehensive eBook chapter".data,
   "section based on the provided slide".data,
   "based on the provided slide title".data,
   "based on the slide content".data,
   "Here is the enhanced content".data,
   "Of course.".data]

/-- Characters of Python `lstrip(':. \n')` used after phrase removal. -/
def introPunct : List Char := [':', '.', ' ', '\n']

/-- Characters of Python `lstrip(': ')` used when fixing headings. -/
def colonSpace : List Char := [':', ' ']

/-- Phrase-removal loop of `_clean_ai_response`: each phrase is tested once,
in list order, case-insensitively against the start of the current text; on a
match the phrase is cut, the rest stripped, then leading `':. \n'` removed. -/
def removePhrases (t : List Char) : List Char :=
  unwantedPhrases.foldl
    (fun cur p =>
      if hasPrefixL (lowerL p) (lowerL cur) then lstripSet introPunct (stripWs (cur.drop p.length))
      else cur)
    t

/-- Condition under which `_clean_ai_response` drops its first line as
leftover intro text: the line contains a colon, is shorter than 100
characters, and (stripped) ends with a colon. -/
def introCondB (t : List Char) : Bool :=
  match splitNl t with
  | [] => false
  | l0 :: _ => decide (':' ∈ l0) && decide (l0.length < 100) &&
      decide ((stripWs l0).getLast? = some ':')

/-- Intro-line removal step of `_clean_ai_response`. -/
def dropIntroLine (t : List Char) : List Char :=
  match splitNl t with
  | [] => t
  | l0 :: rest =>
    if (':' ∈ l0) ∧ l0.length < 100 ∧ (stripWs l0).getLast? = some ':' then
      stripWs (joinNl rest)
    else t

/-- Per-line body of the formatting loop of `_clean_ai_response`: strip the
line, drop it when empty, re-emit headings with exactly `min hashCount 4`
marker characters, one space, and the title cleaned of outer whitespace and
leading `': '` characters. -/
def fixLine (l : List Char) : Option (List Char) :=
  let s := stripWs l
  if s = [] then none
  else if hasPrefixL ['#'] s then
    let k := countHash s
    let t := stripWs (lstripSet colonSpace (stripWs (s.drop k)))
    some (List.replicate (min k 4) '#' ++ ' ' :: t)
  else some s

/-- Formatting loop of `_clean_ai_response` over all lines. -/
def fixLines (ls : List (List Char)) : List (List Char) := ls.filterMap fixLine

/-- Model of `_clean_ai_response` (src/app.py lines 240-314): empty input is
returned unchanged; otherwise strip, remove preamble phrases, drop a leftover
intro line, then normalize heading markers line by line dropping blank
lines. -/
def cleanAiResponse (t : List Char) : List Char :=
  if t = [] then t
  else joinNl (fixLines (splitNl (dropIntroLine (removePhrases (stripWs t)))))

/-! ### Python `str.split(sep)` with a multi-character separator -/

/-- Fuel-driven splitting loop: each step consumes at least one character,
so fuel equal to the input length always suffices. -/
def splitFuel (sep : List Char) : Nat → List Char → List (List Char)
  | _, [] => [[]]
  | 0, l => [l]
  | Nat.succ f, c :: rest =>
    if sep.length ≠ 0 ∧ hasPrefixL sep (c :: rest) = true then
      [] :: splitFuel sep f ((c :: rest).drop sep.length)
    else
      match splitFuel sep f rest with
      | [] => [[c]]
      | s :: ss => (c :: s) :: ss

/-- Python `text.split(sep)` for a non-empty separator: non-overlapping
matches are found left to right; the degenerate empty separator (which Python
rejects) is treated as never matching. -/
def splitOnSep (sep l : List Char) : List (List Char) := splitFuel sep l.length l

/-! ### Data model: image assets and content blocks -/

/-- Image asset as carried through the pipeline: the fields of the
`image_info` dict built at extraction (src/app.py lines 175-184) that the
assembler reads, with the PIL-reported pixel size modelled as exact
rationals (`pil_image.size`).  The raw bytes, extension and filename are
opaque to the assembler and omitted; `ident` stands for the UUID. -/
structure ImageAsset where
  ident : Nat
  slideNumber : Nat
  slideTitle : List Char
  isDiagram : Bool
  width : ℚ
  height : ℚ
  deriving DecidableEq, Repr

/-- Image-resize computation shared by `_add_images_to_story` and
`_add_images_to_story_with_title` (src/app.py lines 1084-1103), as a pure
function of the native size; Python float arithmetic is modelled exactly
over `ℚ`. -/
def resizeImage (w h : ℚ) : ℚ × ℚ :=
  if w > 400 ∨ h > 300 then
    if w / h > 1 then (400, 400 / (w / h))
    else (300 * (w / h), 300)
  else (w, h)

/-- Typed content block handed to the renderers: the story elements appended
by the assembler (headings and body paragraphs from
`_parse_markdown_paragraph`, ReportLab images, caption paragraphs, and the
small spacer appended after every caption). -/
inductive Block where
  | heading (level : Nat) (text : List Char)
  | para (text : List Char)
  | image (asset : ImageAsset) (w h : ℚ)
  | caption (text : List Char)
  | spacer
  deriving DecidableEq, Repr

/-- Python `.replace('**','').replace('*','')`: the second pass removes every
remaining asterisk, so the composite removes all of them. -/
def removeStars (l : List Char) : List Char := l.filter (fun c => !(c == '*'))

/-- Heading-text cleanup of `_parse_markdown_paragraph`:
`lstrip('#').strip()`, asterisk removal, then `lstrip(': ').strip()`. -/
def cleanHeadingText (p : List Char) : List Char :=
  stripWs (lstripSet colonSpace (removeStars (stripWs (p.dropWhile (fun c => c == '#')))))

/-- Body-text cleanup of `_parse_markdown_paragraph`: asterisk removal, then
`lstrip('#').strip()` and `lstrip(': ').strip()`. -/
def cleanParaText (p : List Char) : List Char :=
  stripWs (lstripSet colonSpace (stripWs ((removeStars p).dropWhile (fun c => c == '#'))))

/-- Model of `_parse_markdown_paragraph` (src/app.py lines 651-733), keeping
the heading level and cleaned text (the ReportLab style parameters are
rendering data).  Python's `startswith('#### ') or startswith('####')`
degenerates to the bare marker test. -/
def parseMarkdownParagraph (p0 : List Char) : Block :=
  let p := stripWs p0
  if hasPrefixL "####".data p then Block.heading 4 (cleanHeadingText p)
  else if hasPrefixL "###".data p then Block.heading 3 (cleanHeadingText p)
  else if hasPrefixL "##".data p then Block.heading 2 (cleanHeadingText p)
  else if hasPrefixL "#".data p then Block.heading 1 (cleanHeadingText p)
  else Block.para (cleanParaText p)

/-- Caption text of `_add_images_to_story_with_title`:
`"{label} {chapter}.{ordinal}: {slideTitle}"` with label chosen by the
diagram classification. -/
def captionText (cnum idx : Nat) (isDg : Bool) (slideTitle : List Char) : List Char :=
  (if isDg then "Diagram ".data else "Figure ".data) ++ (Nat.repr cnum).data ++ '.' ::
    ((Nat.repr idx).data ++ ':' :: ' ' :: slideTitle)

/-- Loop body of `_add_images_to_story_with_title` (src/app.py lines
1138-1214): per image one ReportLab image at the resized dimensions, one
caption paragraph, one spacer; `idx` is the 1-based caption ordinal. -/
def addImagesGo (cnum : Nat) (slideTitle : List Char) : Nat → List ImageAsset → List Block
  | _, [] => []
  | idx, im :: rest =>
    Block.image im (resizeImage im.width im.height).1 (resizeImage im.width im.height).2 ::
    Block.caption (captionText cnum idx im.isDiagram slideTitle) ::
    Block.spacer :: addImagesGo cnum slideTitle (idx + 1) rest

/-- Blocks appended by one call of `_add_images_to_story_with_title`. -/
def addImagesBlocks (cnum : Nat) (imgs : List ImageAsset) (slideTitle : List Char) : List Block :=
  addImagesGo cnum slideTitle 1 imgs

/-! ### The per-slide image dict of `_process_grouped_chapter_content`
modelled as an insertion-ordered association list -/

/-- One step of building `images_by_slide`: append the image to its slide's
bucket, or append a new bucket at the end (dict key-insertion order). -/
def addToGroups : List (Nat × List ImageAsset) → ImageAsset → List (Nat × List ImageAsset)
  | [], im => [(im.slideNumber, [im])]
  | (k, gs) :: rest, im =>
    if k = im.slideNumber then (k, gs ++ [im]) :: rest
    else (k, gs) :: addToGroups rest im

/-- The `images_by_slide` dict after the grouping loop. -/
def buildGroups (imgs : List ImageAsset) : List (Nat × List ImageAsset) :=
  imgs.foldl addToGroups []

/-- Dict membership plus read: `images_by_slide[n]`. -/
def lookupGroup : List (Nat × List ImageAsset) → Nat → Option (List ImageAsset)
  | [], _ => none
  | (k, gs) :: rest, n => if k = n then some gs else lookupGroup rest n

/-- Dict deletion: `del images_by_slide[n]`. -/
def eraseGroup : List (Nat × List ImageAsset) → Nat → List (Nat × List ImageAsset)
  | [], _ => []
  | (k, gs) :: rest, n => if k = n then rest else (k, gs) :: eraseGroup rest n

/-- The `slide_titles` dict: built over all of the chapter's images with
later images overwriting earlier ones, so a lookup returns the last matching
image's `slide_title`. -/
def slideTitlesLookup (imgs : List ImageAsset) (n : Nat) : Option (List Char) :=
  ((imgs.filter (fun im => im.slideNumber == n)).getLast?).map ImageAsset.slideTitle

/-- Python `f"Slide {n}"`, the fallback caption title at chapter-end flush
and the default slide title at extraction. -/
def defaultSlideTitle (n : Nat) : List Char := "Slide ".data ++ (Nat.repr n).data

/-- Stale inline image-reference marker `"(Image:"`. -/
def imgMarker : List Char := "(Image:".data

/-- Stale inline image-reference marker `"(Diagram:"`. -/
def dgMarker : List Char := "(Diagram:".data

/-- The `'## '` token: both the section separator and the heading marker
re-prepended before parsing. -/
def hh2 : List Char := "## ".data

/-- Positional slide association of section `i`
(`slide_numbers[i-1] if i > 0 else slide_numbers[0]`, guarded by
`i <= len(slide_numbers)`); Python's `IndexError` on an empty
`slide_numbers` list at `i = 0` is modelled as no association. -/
def csnAt (sns : List Nat) (i : Nat) : Option Nat :=
  if i ≤ sns.length then (if 0 < i then sns.get? (i - 1) else sns.get? 0) else none

/-- Image emission of one section (src/app.py lines 1016-1022): when the
associated slide number is truthy (`sn ≠ 0`) and still pending, emit its
image blocks (caption title from `slide_titles`, else the section heading)
and delete the dict entry. -/
def sectionImgStep (cnum : Nat) (allImgs : List ImageAsset) (csn : Option Nat)
    (slideHeading : List Char) (pend : List (Nat × List ImageAsset)) :
    List Block × List (Nat × List ImageAsset) :=
  match csn with
  | some sn =>
    if sn ≠ 0 then
      match lookupGroup pend sn with
      | some gs =>
        (addImagesBlocks cnum gs ((slideTitlesLookup allImgs sn).getD slideHeading),
         eraseGroup pend sn)
      | none => ([], pend)
    else ([], pend)
  | none => ([], pend)

/-- Remaining lines of a section (src/app.py lines 1025-1029): stripped,
blank lines and stale `"(Image:"` / `"(Diagram:"` markers skipped, the rest
parsed as markdown paragraphs. -/
def sectionParas (restLines : List (List Char)) : List Block :=
  restLines.filterMap (fun ln =>
    let s := stripWs ln
    if s.isEmpty || hasPrefixL imgMarker s || hasPrefixL dgMarker s then none
    else some (parseMarkdownParagraph s))

/-- Section loop of `_process_grouped_chapter_content` (src/app.py lines
991-1029): `i` is the running `enumerate` index over all split sections
(blank ones included), `pend` the mutable `images_by_slide` dict.  A
non-blank section emits its first line as a `## ` heading, then the pending
images of the positionally associated slide, then the remaining lines as
parsed paragraphs. -/
def processSections (cnum : Nat) (sns : List Nat) (allImgs : List ImageAsset) :
    Nat → List (List Char) → List (Nat × List ImageAsset) →
    List Block × List (Nat × List ImageAsset)
  | _, [], pend => ([], pend)
  | i, sec :: rest, pend =>
    if stripWs sec = [] then processSections cnum sns allImgs (i + 1) rest pend
    else
      match splitNl (stripWs sec) with
      | [] => processSections cnum sns allImgs (i + 1) rest pend
      | l0 :: restLines =>
        let step := sectionImgStep cnum allImgs (csnAt sns i) (stripWs l0) pend
        let restOut := processSections cnum sns allImgs (i + 1) rest step.2
        (parseMarkdownParagraph (hh2 ++ stripWs l0) :: step.1 ++ sectionParas restLines
          ++ restOut.1, restOut.2)

/-- Chapter-end flush loop (src/app.py lines 1031-1035): remaining dict
entries in key-insertion order, captions falling back to `"Slide {n}"`. -/
def flushBlocks (cnum : Nat) (allImgs : List ImageAsset)
    (pend : List (Nat × List ImageAsset)) : List Block :=
  (pend.map (fun p =>
    addImagesBlocks cnum p.2 ((slideTitlesLookup allImgs p.1).getD (defaultSlideTitle p.1)))).flatten

/-- Section pass of `_process_grouped_chapter_content`: blocks emitted during
section processing together with the images still pending afterwards. -/
def groupedSplit (cnum : Nat) (sns : List Nat) (imgs : List ImageAsset) (text : List Char) :
    List Block × List (Nat × List ImageAsset) :=
  processSections cnum sns imgs 0 (splitOnSep hh2 text) (buildGroups imgs)

/-- Model of `_process_grouped_chapter_content` (src/app.py lines 960-1035):
the full block sequence the grouped-chapter assembler appends to the story,
section blocks followed by the chapter-end flush of unplaced images. -/
def processGroupedChapterContent (cnum : Nat) (sns : List Nat) (imgs : List ImageAsset)
    (text : List Char) : List Block :=
  (groupedSplit cnum sns imgs text).1 ++
    flushBlocks cnum imgs (groupedSplit cnum sns imgs text).2

/-- Image assets carried by the `image` blocks of a block sequence, in
order. -/
def imagesOfBlocks (bs : List Block) : List ImageAsset :=
  bs.filterMap (fun b => match b with | Block.image a _ _ => some a | _ => none)

/-! ### Slide records and chapters (src/app.py lines 118-217, 316-406) -/

/-- Python `f"Chapter {n}"`. -/
def chapterTitle (n : Nat) : List Char := "Chapter ".data ++ (Nat.repr n).data

/-- One extracted slide record (`slide_content` dict, src/app.py lines
130-135). -/
structure SlideRec where
  slide_number : Nat
  title : List Char
  content : List (List Char)
  images : List ImageAsset
  deriving DecidableEq, Repr

/-- One grouped chapter (`combined_content` dict, src/app.py lines 330-336
and 378-384). -/
structure Chapter where
  slide_numbers : List Nat
  title : List Char
  content : List (List Char)
  images : List ImageAsset
  chapter_number : Nat
  deriving DecidableEq, Repr

/-- Content lines a member slide contributes to its chapter: the slide title
as a `## ` section header (unless empty or the generated default), then the
slide's content lines. -/
def slideSectionLines (s : SlideRec) : List (List Char) :=
  (if s.title ≠ [] ∧ s.title ≠ defaultSlideTitle s.slide_number then [hh2 ++ s.title] else [])
    ++ s.content

/-- Defensive re-tagging of `img['slide_number']` when a slide's images are
copied into a chapter. -/
def retagImages (s : SlideRec) : List ImageAsset :=
  s.images.map (fun im => { im with slideNumber := s.slide_number })

/-- The chapter-combination loop shared verbatim by
`_group_slides_into_chapters` and `_create_chapters_from_custom_ranges`
(src/app.py lines 330-351 and 378-398). -/
def mkChapter (cnum : Nat) (group : List SlideRec) : Chapter :=
  { slide_numbers := group.map (fun s => s.slide_number)
    title := chapterTitle cnum
    content := (group.map slideSectionLines).flatten
    images := (group.map retagImages).flatten
    chapter_number := cnum }

/-- Accumulating loop of `_group_slides_into_chapters`: close the current
chapter when it has reached `k` slides or at the final slide. -/
def groupGo (k : Nat) : List SlideRec → Nat → List SlideRec → List Chapter
  | _, _, [] => []
  | cur, cnum, s :: rest =>
    let cur2 := cur ++ [s]
    if k ≤ cur2.length ∨ rest = [] then
      mkChapter cnum cur2 :: groupGo k [] (cnum + 1) rest
    else groupGo k cur2 cnum rest

/-- Model of `_group_slides_into_chapters` (src/app.py lines 316-360). -/
def groupSlidesIntoChapters (slides : List SlideRec) (k : Nat) : List Chapter :=
  groupGo k [] 1 slides

/-- Slides whose number falls inclusively within a custom range, in deck
order (src/app.py lines 370-374). -/
def slidesInRange (slides : List SlideRec) (r : Nat × Nat) : List SlideRec :=
  slides.filter (fun s => decide (r.1 ≤ s.slide_number ∧ s.slide_number ≤ r.2))

/-- Range loop of `_create_chapters_from_custom_ranges`: `cnum` is the
1-based `enumerate` ordinal of the range, advanced for every range whether or
not it matched any slide; empty matches produce no chapter (only a logged
warning). -/
def customRangesGo (slides : List SlideRec) : Nat → List (Nat × Nat) → List Chapter
  | _, [] => []
  | cnum, r :: rs =>
    let sl := slidesInRange slides r
    if sl = [] then customRangesGo slides (cnum + 1) rs
    else mkChapter cnum sl :: customRangesGo slides (cnum + 1) rs

/-- Model of `_create_chapters_from_custom_ranges` (src/app.py lines
362-406). -/
def createChaptersFromCustomRanges (slides : List SlideRec) (ranges : List (Nat × Nat)) :
    List Chapter :=
  customRangesGo slides 1 ranges

/-! ### `_is_likely_diagram` (src/app.py lines 219-238) -/

/-- The `diagram_keywords` list tested against the shape name. -/
def shapeNameKeywords : List (List Char) :=
  ["diagram".data, "flowchart".data, "chart".data, "flow".data, "process".data,
   "smartart".data, "graphic".data]

/-- The `diagram_text_keywords` list tested against the slide's
title-plus-content text. -/
def diagramTextKeywords : List (List Char) :=
  ["diagram".data, "flowchart".data, "process".data, "workflow".data, "chart".data,
   "flow".data, "steps".data, "procedure".data]

/-- Python `slide_content.get('title','') + ' ' + ' '.join(content)`. -/
def allTextOf (title : List Char) (content : List (List Char)) : List Char :=
  title ++ ' ' :: List.intercalate [' '] content

/-- Model of `_is_likely_diagram`: return true when the (present, non-empty)
shape name contains a `shapeNameKeywords` entry, else when the lowered
title-plus-content text contains a `diagramTextKeywords` entry; substring
containment is Python's `in`. -/
def isLikelyDiagram (shapeName : Option (List Char)) (title : List Char)
    (content : List (List Char)) : Bool :=
  let nameHit :=
    match shapeName with
    | some nm =>
      !nm.isEmpty && shapeNameKeywords.any (fun kw => decide (List.IsInfix kw (lowerL nm)))
    | none => false
  if nameHit then true
  else diagramTextKeywords.any (fun kw => decide (List.IsInfix kw (lowerL (allTextOf title content))))

/-- Modelled from the spec: the single fixed ten-keyword set the spec claims
is shared by both checks of the Image-vs-Diagram heuristic. -/
def specClaimedKeywords : List (List Char) :=
  ["diagram".data, "flowchart".data, "chart".data, "flow".data, "process".data,
   "smartart".data, "graphic".data, "workflow".data, "steps".data, "procedure".data]

/-- Modelled from the spec: the classification predicate as the spec words
it — Diagram exactly when the shape name or the title-plus-content text
contains a keyword of the single fixed set, case-insensitively. -/
def specDiagramHeuristic (shapeName : Option (List Char)) (title : List Char)
    (content : List (List Char)) : Bool :=
  (match shapeName with
   | some nm => specClaimedKeywords.any (fun kw => decide (List.IsInfix kw (lowerL nm)))
   | none => false) ||
  specClaimedKeywords.any (fun kw => decide (List.IsInfix kw (lowerL (allTextOf title content))))

/-! ### Claim C2: assembler association at the spec's concrete input -/

/-- C2: for the EnhancedChapter with text `"## Intro\nline1\n## Details\nline2"`,
`sourceSlideNumbers = [3, 4]` and one image originating from slide 4, the
assembler emits that image's Image block and Caption block immediately after
the `"Details"` heading block (and before the section's remaining paragraph),
not appended at the end of the chapter. -/
theorem c2_assembler_association :
    processGroupedChapterContent 1 [3, 4]
      [⟨0, 4, "Details slide".data, false, 100, 50⟩]
      "## Intro\nline1\n## Details\nline2".data
    = [Block.heading 2 "Intro".data, Block.para "line1".data,
       Block.heading 2 "Details".data,
       Block.image ⟨0, 4, "Details slide".data, false, 100, 50⟩ 100 50,
       Block.caption "Figure 1.1: Details slide".data, Block.spacer,
       Block.para "line2".data] := by decide

/-! ### Claim C3: custom-range chapter numbering -/

/-- C3 counterexample: over a one-slide deck, ranges `[(5,6), (1,1)]` have
exactly one range matching at least one slide, yet the single produced
chapter is numbered 2 (the ordinal of its range in the input list), not the
dense value 1 the claim requires. -/
theorem c3_custom_ranges_counterexample :
    (createChaptersFromCustomRanges [⟨1, "T".data, [], []⟩] [(5, 6), (1, 1)]).map
        (fun c => c.chapter_number) = [2]
    ∧ ([2] : List Nat) ≠ [1] := ⟨by decide, by decide⟩

/-- Range loop characterized over the 1-based enumeration of the input
ranges. -/
theorem customRangesGo_eq_filterMap (slides : List SlideRec) :
    ∀ (rs : List (Nat × Nat)) (n : Nat),
      customRangesGo slides n rs
        = (rs.enumFrom n).filterMap
            (fun p => if slidesInRange slides p.2 = [] then none
                      else some (mkChapter p.1 (slidesInRange slides p.2)))
  | [], _ => rfl
  | r :: rs, n => by
    by_cases h : slidesInRange slides r = [] <;>
      simp [customRangesGo, List.enumFrom_cons, List.filterMap_cons, h,
        customRangesGo_eq_filterMap slides rs (n + 1)]

/-- C3 (amended): a range matching zero slides yields no chapter and no
error, but each produced chapter keeps the 1-based ordinal of its range in
the input list as its chapter number, so skipped ranges leave gaps in the
chapter numbering (the numbering is not the dense sequence 1..k). -/
theorem c3_custom_ranges_amended (slides : List SlideRec) (ranges : List (Nat × Nat)) :
    createChaptersFromCustomRanges slides ranges
      = (ranges.enumFrom 1).filterMap
          (fun p => if slidesInRange slides p.2 = [] then none
                    else some (mkChapter p.1 (slidesInRange slides p.2)))
    ∧ (createChaptersFromCustomRanges slides ranges).map (fun c => c.chapter_number)
        = (ranges.enumFrom 1).filterMap
            (fun p => if slidesInRange slides p.2 = [] then none else some p.1) := by
  refine ⟨customRangesGo_eq_filterMap slides ranges 1, ?_⟩
  rw [createChaptersFromCustomRanges, customRangesGo_eq_filterMap slides ranges 1,
    List.map_filterMap]
  congr 1
  funext p
  by_cases h : slidesInRange slides p.2 = [] <;> simp [h, mkChapter]

/-! ### Claim C5: preamble stripping at the spec's concrete input -/

/-- C5 counterexample: normalizing
`"Of course. Here is a comprehensive eBook chapter on Topic\n\nBody text"`
does not produce text beginning with `"Body text"`. -/
theorem c5_preamble_strip_counterexample :
    hasPrefixL "Body text".data
      (cleanAiResponse
        "Of course. Here is a comprehensive eBook chapter on Topic\n\nBody text".data)
      = false := by decide

/-- C5 (amended): the phrase list stops at "eBook chapter", so the input
normalizes to `"on Topic\nBody text"` — the residual words "on Topic" remain
in front of the body (the blank separator line is removed). -/
theorem c5_preamble_strip_amended :
    cleanAiResponse
      "Of course. Here is a comprehensive eBook chapter on Topic\n\nBody text".data
      = "on Topic\nBody text".data := by decide

/-! ### Claim C6: image resizing -/

/-- C6 counterexample: a 500×450 image exceeds the 400-point width bound, is
scaled by the width rule to 400×360, and the resulting height 360 does not
fit the 300-point height bound — the result does not fit within the 400×300
box. -/
theorem c6_resize_counterexample :
    resizeImage 500 450 = (400, 360) ∧ ¬((360 : ℚ) ≤ 300) := by
  constructor
  · rw [resizeImage]
    norm_num
  · norm_num

/-- C6 (amended): the resize computation is a pure function of width and
height; dimensions within the 400×300 box are unchanged, and when either
bound is exceeded the aspect ratio is preserved with a single governing
dimension clamped (width to 400 when the aspect ratio exceeds 1, height to
300 otherwise) — the other dimension may still exceed its bound.  The
spec's concrete instances hold: 1600×900 ↦ 400×225, 300×900 ↦ 100×300,
200×100 unchanged. -/
theorem c6_resize_amended (w h : ℚ) (hw : 0 < w) (hh : 0 < h) :
    (w ≤ 400 → h ≤ 300 → resizeImage w h = (w, h))
    ∧ ((400 < w ∨ 300 < h) →
        (resizeImage w h).1 * h = (resizeImage w h).2 * w
        ∧ (1 < w / h → (resizeImage w h).1 = 400)
        ∧ (w / h ≤ 1 → (resizeImage w h).2 = 300))
    ∧ resizeImage 1600 900 = (400, 225)
    ∧ resizeImage 300 900 = (100, 300)
    ∧ resizeImage 200 100 = (200, 100) := by
  refine ⟨?_, ?_, by rw [resizeImage]; norm_num, by rw [resizeImage]; norm_num,
    by rw [resizeImage]; norm_num⟩
  · intro h1 h2
    have hnc : ¬(w > 400 ∨ h > 300) := by push_neg; exact ⟨h1, h2⟩
    rw [resizeImage, if_neg hnc]
  · intro hex
    have hcond : w > 400 ∨ h > 300 := hex
    have hh0 : h ≠ 0 := ne_of_gt hh
    have hw0 : w ≠ 0 := ne_of_gt hw
    rw [resizeImage, if_pos hcond]
    by_cases ha : w / h > 1
    · rw [if_pos ha]
      refine ⟨?_, fun _ => rfl, fun hle => absurd ha (not_lt.mpr hle)⟩
      field_simp
    · rw [if_neg ha]
      refine ⟨?_, fun hgt => absurd hgt ha, fun _ => rfl⟩
      field_simp

/-- Closed instance of `c6_resize_amended` at the width-bound example
1600×900 with its positivity hypotheses discharged. -/
theorem c6_resize_amended_witness :
    (0 : ℚ) < 1600 ∧ (0 : ℚ) < 900
    ∧ (((1600 : ℚ) ≤ 400 → (900 : ℚ) ≤ 300 → resizeImage 1600 900 = (1600, 900))
       ∧ ((400 < (1600 : ℚ) ∨ 300 < (900 : ℚ)) →
           (resizeImage 1600 900).1 * 900 = (resizeImage 1600 900).2 * 1600
           ∧ (1 < (1600 : ℚ) / 900 → (resizeImage 1600 900).1 = 400)
           ∧ ((1600 : ℚ) / 900 ≤ 1 → (resizeImage 1600 900).2 = 300))
       ∧ resizeImage 1600 900 = (400, 225)
       ∧ resizeImage 300 900 = (100, 300)
       ∧ resizeImage 200 100 = (200, 100)) :=
  ⟨by norm_num, by norm_num, c6_resize_amended 1600 900 (by norm_num) (by norm_num)⟩

/-! ### Claim C9: the Image-vs-Diagram keyword heuristic -/

/-- C9 counterexample: a picture shape named `"steps"` on a slide with empty
title and content.  Under the spec's single ten-keyword set the asset would
be tagged Diagram ("steps" is in the set and occurs in the shape name), but
the code tags it Image: the shape-name check uses a seven-keyword list that
lacks "steps", and the text check never sees the shape name. -/
theorem c9_diagram_heuristic_counterexample :
    specDiagramHeuristic (some "steps".data) [] [] = true
    ∧ isLikelyDiagram (some "steps".data) [] [] = false := ⟨by decide, by decide⟩

/-- C9 (amended): the heuristic uses two different keyword lists — the asset
is tagged Diagram exactly when the shape name is present, non-empty and
contains one of the seven `shapeNameKeywords`, or the lowered
title-plus-content text contains one of the eight `diagramTextKeywords`
(case-insensitive substring containment in both cases). -/
theorem c9_diagram_heuristic_amended (shapeName : Option (List Char)) (title : List Char)
    (content : List (List Char)) :
    isLikelyDiagram shapeName title content = true ↔
      ((∃ nm, shapeName = some nm ∧ nm ≠ [] ∧
          ∃ kw ∈ shapeNameKeywords, List.IsInfix kw (lowerL nm))
       ∨ ∃ kw ∈ diagramTextKeywords, List.IsInfix kw (lowerL (allTextOf title content))) := by
  cases shapeName with
  | none =>
      simp [isLikelyDiagram, List.any_eq_true]
  | some nm =>
      by_cases hnm : nm = []
      · subst hnm
        simp [isLikelyDiagram, List.any_eq_true]
      · simp [isLikelyDiagram, List.any_eq_true, hnm, List.isEmpty_iff]

/-! ### Whitespace and line-splitting toolkit -/

theorem dropWhile_idem (p : Char → Bool) (l : List Char) :
    (l.dropWhile p).dropWhile p = l.dropWhile p := by
  cases h : l.dropWhile p with
  | nil => rfl
  | cons x xs =>
    have hx := List.head_dropWhile_not p l (by simp [h])
    simp [h] at hx
    simp [List.dropWhile_cons, hx]

theorem dropWhile_head_false {p : Char → Bool} {l : List Char} {c : Char} {cs : List Char}
    (h : l.dropWhile p = c :: cs) : p c = false := by
  induction l with
  | nil => simp at h
  | cons d rest ih =>
    rw [List.dropWhile_cons] at h
    cases hp : p d with
    | true => rw [hp] at h; simp at h; exact ih h
    | false =>
      rw [hp] at h
      simp at h
      rw [← h.1]
      exact hp

theorem lstripWs_cons_of_neg {c : Char} (hc : isSpaceChar c = false) (l : List Char) :
    lstripWs (c :: l) = c :: l := by
  simp [lstripWs, List.dropWhile_cons, hc]

theorem rstripWs_rstripWs (l : List Char) : rstripWs (rstripWs l) = rstripWs l := by
  unfold rstripWs
  rw [List.reverse_reverse, dropWhile_idem]

theorem rstripWs_append (l m : List Char) (hm : rstripWs m ≠ []) :
    rstripWs (l ++ m) = l ++ rstripWs m := by
  have hne : ¬(m.reverse.dropWhile isSpaceChar).isEmpty := by
    intro hc
    rw [List.isEmpty_iff] at hc
    exact hm (by simp [rstripWs, hc])
  unfold rstripWs
  rw [List.reverse_append, List.dropWhile_append, if_neg hne, List.reverse_append,
    List.reverse_reverse]

theorem rstrip_decomp (l : List Char) :
    l = rstripWs l ++ (l.reverse.takeWhile isSpaceChar).reverse := by
  conv_lhs => rw [← List.reverse_reverse l,
    ← List.takeWhile_append_dropWhile (p := isSpaceChar) (l := l.reverse)]
  rw [List.reverse_append]
  rfl

theorem head?_rstripWs (l : List Char) (h : rstripWs l ≠ []) :
    (rstripWs l).head? = l.head? := by
  conv_rhs => rw [rstrip_decomp l]
  cases hr : rstripWs l with
  | nil => exact absurd hr h
  | cons x xs => simp

theorem lstripWs_head_not_space (l : List Char) {c : Char} {cs : List Char}
    (h : lstripWs l = c :: cs) : isSpaceChar c = false :=
  dropWhile_head_false (by simpa [lstripWs] using h)

theorem lstripWs_stripWs (l : List Char) : lstripWs (stripWs l) = stripWs l := by
  rw [stripWs]
  cases hr : rstripWs (lstripWs l) with
  | nil => rfl
  | cons x xs =>
    have h1 := head?_rstripWs (lstripWs l) (by rw [hr]; simp)
    rw [hr] at h1
    cases hl : lstripWs l with
    | nil => rw [hl] at h1; simp at h1
    | cons y ys =>
      rw [hl] at h1
      simp only [List.head?_cons, Option.some.injEq] at h1
      have hy : isSpaceChar y = false := lstripWs_head_not_space l hl
      exact lstripWs_cons_of_neg (by rw [h1]; exact hy) xs

theorem rstripWs_stripWs (l : List Char) : rstripWs (stripWs l) = stripWs l := by
  rw [stripWs, rstripWs_rstripWs]

theorem stripWs_idem (l : List Char) : stripWs (stripWs l) = stripWs l := by
  have h1 : stripWs (stripWs l) = rstripWs (lstripWs (stripWs l)) := rfl
  rw [h1, lstripWs_stripWs, rstripWs_stripWs]

theorem stripWs_head_not_space (l : List Char) {c : Char} {cs : List Char}
    (h : stripWs l = c :: cs) : isSpaceChar c = false := by
  have h2 : lstripWs (stripWs l) = c :: cs := by rw [lstripWs_stripWs]; exact h
  exact dropWhile_head_false (by simpa [lstripWs] using h2)

theorem getLast?_rstripWs_not_space (l : List Char) {c : Char}
    (h : (rstripWs l).getLast? = some c) : isSpaceChar c = false := by
  rw [rstripWs, List.getLast?_reverse] at h
  cases hd : l.reverse.dropWhile isSpaceChar with
  | nil => rw [hd] at h; simp at h
  | cons x xs =>
    rw [hd] at h
    simp only [List.head?_cons, Option.some.injEq] at h
    have hx := dropWhile_head_false hd
    exact h ▸ hx

theorem stripWs_getLast_not_space (l : List Char) {c : Char}
    (h : (stripWs l).getLast? = some c) : isSpaceChar c = false :=
  getLast?_rstripWs_not_space (lstripWs l) (by rwa [← stripWs])

theorem splitNl_ne_nil (l : List Char) : splitNl l ≠ [] := by
  cases l with
  | nil => simp [splitNl]
  | cons c rest =>
    simp only [splitNl]
    by_cases h : c = '\n'
    · simp [h]
    · cases hs : splitNl rest <;> simp [h, hs]

theorem splitNl_cons_not_nl {c : Char} (hc : ¬(c = '\n')) (l : List Char) :
    splitNl (c :: l) = (c :: (splitNl l).headD []) :: (splitNl l).tail := by
  simp only [splitNl, if_neg hc]
  cases hs : splitNl l with
  | nil => exact absurd hs (splitNl_ne_nil l)
  | cons s ss => simp

theorem splitNl_no_nl (a : List Char) (ha : ('\n' : Char) ∉ a) : splitNl a = [a] := by
  induction a with
  | nil => rfl
  | cons c cs ih =>
    simp only [List.mem_cons, not_or] at ha
    have hc : ¬(c = '\n') := fun hcc => ha.1 hcc.symm
    rw [splitNl_cons_not_nl hc, ih ha.2]
    rfl

theorem splitNl_append_nl (a b : List Char) (ha : ('\n' : Char) ∉ a) :
    splitNl (a ++ '\n' :: b) = a :: splitNl b := by
  induction a with
  | nil => simp [splitNl]
  | cons c cs ih =>
    simp only [List.mem_cons, not_or] at ha
    have hc : ¬(c = '\n') := fun hcc => ha.1 hcc.symm
    rw [List.cons_append, splitNl_cons_not_nl hc, ih ha.2]
    rfl

theorem splitNl_joinNl (ls : List (List Char)) (h : ∀ s ∈ ls, ('\n' : Char) ∉ s)
    (hne : ls ≠ []) : splitNl (joinNl ls) = ls := by
  induction ls with
  | nil => exact absurd rfl hne
  | cons a rest ih =>
    cases rest with
    | nil => exact splitNl_no_nl a (h a (by simp))
    | cons b rs =>
      rw [joinNl, splitNl_append_nl a _ (h a (by simp)),
        ih (fun s hs => h s (List.mem_cons_of_mem a hs)) (by simp)]

theorem mem_of_mem_splitNl {c : Char} {s l : List Char} (hs : s ∈ splitNl l) (hc : c ∈ s) :
    c ∈ l := by
  induction l generalizing s with
  | nil =>
    simp [splitNl] at hs
    subst hs
    simp at hc
  | cons d rest ih =>
    by_cases hd : d = '\n'
    · subst hd
      simp only [splitNl, if_pos rfl] at hs
      rcases List.mem_cons.mp hs with h1 | h1
      · subst h1; simp at hc
      · exact List.mem_cons_of_mem _ (ih h1 hc)
    · rw [splitNl_cons_not_nl hd] at hs
      rcases List.mem_cons.mp hs with h1 | h1
      · subst h1
        rcases List.mem_cons.mp hc with h2 | h2
        · exact h2 ▸ List.mem_cons_self d rest
        · have hh : (splitNl rest).headD [] ∈ splitNl rest := by
            cases hsp : splitNl rest with
            | nil => exact absurd hsp (splitNl_ne_nil rest)
            | cons s0 ss => simp
          exact List.mem_cons_of_mem d (ih hh h2)
      · have ht : s ∈ splitNl rest := by
          cases hsp : splitNl rest with
          | nil => exact absurd hsp (splitNl_ne_nil rest)
          | cons s0 ss =>
            rw [hsp] at h1
            exact hsp ▸ List.mem_cons_of_mem s0 h1
        exact List.mem_cons_of_mem d (ih ht hc)

theorem not_nl_mem_splitNl {s l : List Char} (hs : s ∈ splitNl l) : ('\n' : Char) ∉ s := by
  induction l generalizing s with
  | nil =>
    simp [splitNl] at hs
    subst hs
    simp
  | cons d rest ih =>
    by_cases hd : d = '\n'
    · subst hd
      simp only [splitNl, if_pos rfl] at hs
      rcases List.mem_cons.mp hs with h1 | h1
      · subst h1; simp
      · exact ih h1
    · rw [splitNl_cons_not_nl hd] at hs
      rcases List.mem_cons.mp hs with h1 | h1
      · subst h1
        intro hmem
        rcases List.mem_cons.mp hmem with h2 | h2
        · exact hd h2.symm
        · have hh : (splitNl rest).headD [] ∈ splitNl rest := by
            cases hsp : splitNl rest with
            | nil => exact absurd hsp (splitNl_ne_nil rest)
            | cons s0 ss => simp
          exact ih hh h2
      · have ht : s ∈ splitNl rest := by
          cases hsp : splitNl rest with
          | nil => exact absurd hsp (splitNl_ne_nil rest)
          | cons s0 ss =>
            rw [hsp] at h1
            exact hsp ▸ List.mem_cons_of_mem s0 h1
        exact ih ht

/-! ### Unfolding lemmas for the section loop -/

theorem processSections_nil (cnum : Nat) (sns : List Nat) (allImgs : List ImageAsset)
    (i : Nat) (pend : List (Nat × List ImageAsset)) :
    processSections cnum sns allImgs i [] pend = ([], pend) := rfl

theorem processSections_cons_blank (cnum : Nat) (sns : List Nat) (allImgs : List ImageAsset)
    (i : Nat) (sec : List Char) (rest : List (List Char))
    (pend : List (Nat × List ImageAsset)) (hse : stripWs sec = []) :
    processSections cnum sns allImgs i (sec :: rest) pend
      = processSections cnum sns allImgs (i + 1) rest pend := by
  rw [processSections, if_pos hse]

theorem processSections_cons_ne (cnum : Nat) (sns : List Nat) (allImgs : List ImageAsset)
    (i : Nat) (sec : List Char) (rest : List (List Char))
    (pend : List (Nat × List ImageAsset)) (hne : ¬(stripWs sec = []))
    {l0 : List Char} {restLines : List (List Char)}
    (hsp : splitNl (stripWs sec) = l0 :: restLines) :
    processSections cnum sns allImgs i (sec :: rest) pend
      = (parseMarkdownParagraph (hh2 ++ stripWs l0) ::
          (sectionImgStep cnum allImgs (csnAt sns i) (stripWs l0) pend).1
          ++ sectionParas restLines
          ++ (processSections cnum sns allImgs (i + 1) rest
              (sectionImgStep cnum allImgs (csnAt sns i) (stripWs l0) pend).2).1,
         (processSections cnum sns allImgs (i + 1) rest
           (sectionImgStep cnum allImgs (csnAt sns i) (stripWs l0) pend).2).2) := by
  rw [processSections, if_neg hne, hsp]

/-- Prepending the `'## '` marker to a stripped line always parses as a
level-2 heading block. -/
theorem parse_hh2_heading (x : List Char) :
    ∃ t, parseMarkdownParagraph (hh2 ++ stripWs x) = Block.heading 2 t := by
  cases hy : stripWs x with
  | nil =>
    exact ⟨[], by rw [List.append_nil]; decide⟩
  | cons c cs =>
    have hh2eq : hh2 = ['#', '#', ' '] := rfl
    have hrfix : rstripWs (c :: cs) = c :: cs := by
      rw [← hy, rstripWs_stripWs]
    have hrne : rstripWs (c :: cs) ≠ [] := by rw [hrfix]; simp
    have h1 : lstripWs (hh2 ++ c :: cs) = hh2 ++ c :: cs := by
      rw [hh2eq, List.cons_append]
      exact lstripWs_cons_of_neg (by decide) _
    have hstrip : stripWs (hh2 ++ c :: cs) = hh2 ++ c :: cs := by
      rw [stripWs, h1, rstripWs_append _ _ hrne, hrfix]
    have e1 : (('#' : Char) == '#') = true := by decide
    have e2 : (('#' : Char) == ' ') = false := by decide
    have d4 : "####".data = ['#', '#', '#', '#'] := rfl
    have d3 : "###".data = ['#', '#', '#'] := rfl
    have d2 : "##".data = ['#', '#'] := rfl
    have h4 : hasPrefixL "####".data (hh2 ++ c :: cs) = false := by
      rw [d4, hh2eq]
      simp [hasPrefixL, e1, e2]
    have h3 : hasPrefixL "###".data (hh2 ++ c :: cs) = false := by
      rw [d3, hh2eq]
      simp [hasPrefixL, e1, e2]
    have h2 : hasPrefixL "##".data (hh2 ++ c :: cs) = true := by
      rw [d2, hh2eq]
      simp [hasPrefixL, e1]
    refine ⟨cleanHeadingText (hh2 ++ c :: cs), ?_⟩
    rw [parseMarkdownParagraph]
    rw [hstrip, h4, h3, h2]
    simp

/-! ### Claim C8: leading preamble sections -/

/-- C8 counterexample: for the chapter text `"preamble\n## Details\nline2"`
with member slides `[3, 4]` and one image on slide 3, the assembler emits the
preamble's first line as a level-2 Heading block (not as paragraph content)
and places slide 3's image immediately after that preamble heading — the
preamble is neither emitted as-is nor left without image association. -/
theorem c8_preamble_counterexample :
    processGroupedChapterContent 1 [3, 4]
        [⟨7, 3, "Slide3T".data, false, 200, 100⟩]
        "preamble\n## Details\nline2".data
      = [Block.heading 2 "preamble".data,
         Block.image ⟨7, 3, "Slide3T".data, false, 200, 100⟩ 200 100,
         Block.caption "Figure 1.1: Slide3T".data, Block.spacer,
         Block.heading 2 "Details".data, Block.para "line2".data]
    ∧ (processGroupedChapterContent 1 [3, 4]
        [⟨7, 3, "Slide3T".data, false, 200, 100⟩]
        "preamble\n## Details\nline2".data).get? 1
      = some (Block.image ⟨7, 3, "Slide3T".data, false, 200, 100⟩ 200 100) :=
  ⟨by decide, by decide⟩

/-- C8 (amended): when the chapter text has a non-blank leading section
before the first `'## '` marker, the assembler emits the preamble's first
line as a level-2 Heading block (the `'## '` marker is re-prepended before
parsing), and the preamble is positionally associated with the first member
slide: if `sourceSlideNumbers` has a first element `sn ≠ 0` whose image group
is pending, that group's first image block appears immediately after the
preamble heading. -/
theorem c8_preamble_amended (cnum : Nat) (sns : List Nat) (imgs : List ImageAsset)
    (text : List Char) (s₀ : List Char) (srest : List (List Char))
    (hsplit : splitOnSep hh2 text = s₀ :: srest) (hne : ¬(stripWs s₀ = [])) :
    ∃ t tail,
      processGroupedChapterContent cnum sns imgs text = Block.heading 2 t :: tail
      ∧ ∀ sn g gs', sns.get? 0 = some sn → sn ≠ 0 →
          lookupGroup (buildGroups imgs) sn = some (g :: gs') →
          tail.head? = some (Block.image g (resizeImage g.width g.height).1
            (resizeImage g.width g.height).2) := by
  obtain ⟨l0, restLines, hsp⟩ : ∃ a b, splitNl (stripWs s₀) = a :: b := by
    cases hq : splitNl (stripWs s₀) with
    | nil => exact absurd hq (splitNl_ne_nil _)
    | cons a b => exact ⟨a, b, rfl⟩
  obtain ⟨t, ht⟩ := parse_hh2_heading l0
  have hcsn : csnAt sns 0 = sns.get? 0 := by simp [csnAt]
  have hgs : groupedSplit cnum sns imgs text
      = processSections cnum sns imgs 0 (s₀ :: srest) (buildGroups imgs) := by
    rw [groupedSplit, hsplit]
  have hmain := processSections_cons_ne cnum sns imgs 0 s₀ srest (buildGroups imgs) hne hsp
  refine ⟨t,
    (sectionImgStep cnum imgs (csnAt sns 0) (stripWs l0) (buildGroups imgs)).1
      ++ (sectionParas restLines
      ++ ((processSections cnum sns imgs 1 srest
          (sectionImgStep cnum imgs (csnAt sns 0) (stripWs l0) (buildGroups imgs)).2).1
      ++ flushBlocks cnum imgs
          (processSections cnum sns imgs 1 srest
            (sectionImgStep cnum imgs (csnAt sns 0) (stripWs l0) (buildGroups imgs)).2).2)),
    ?_, ?_⟩
  · rw [processGroupedChapterContent, hgs, hmain, ht]
    simp only [List.cons_append, List.append_assoc]
  · intro sn g gs' hsn hsn0 hlook
    have hc2 : csnAt sns 0 = some sn := by rw [hcsn, hsn]
    have hstep : (sectionImgStep cnum imgs (csnAt sns 0) (stripWs l0) (buildGroups imgs)).1
        = addImagesBlocks cnum (g :: gs')
            ((slideTitlesLookup imgs sn).getD (stripWs l0)) := by
      simp only [sectionImgStep, hc2, hlook, hsn0, ne_eq, not_false_eq_true, if_true]
    rw [hstep]
    simp [addImagesBlocks, addImagesGo]

/-- Closed instance of `c8_preamble_amended` at the concrete preamble
chapter, with both hypotheses discharged by evaluation. -/
theorem c8_preamble_amended_witness :
    splitOnSep hh2 "preamble\n## Details\nline2".data
        = ["preamble\n".data, "Details\nline2".data]
    ∧ ¬(stripWs "preamble\n".data = [])
    ∧ ∃ t tail,
        processGroupedChapterContent 1 [3, 4] [⟨7, 3, "SlideT".data, false, 200, 100⟩]
            "preamble\n## Details\nline2".data = Block.heading 2 t :: tail
        ∧ ∀ sn g gs', ([3, 4] : List Nat).get? 0 = some sn → sn ≠ 0 →
            lookupGroup (buildGroups [⟨7, 3, "SlideT".data, false, 200, 100⟩]) sn
              = some (g :: gs') →
            tail.head? = some (Block.image g (resizeImage g.width g.height).1
              (resizeImage g.width g.height).2) :=
  ⟨by decide, by decide,
   c8_preamble_amended 1 [3, 4] [⟨7, 3, "SlideT".data, false, 200, 100⟩]
     "preamble\n## Details\nline2".data "preamble\n".data ["Details\nline2".data]
     (by decide) (by decide)⟩

/-! ### Claim C7: fixed-size grouping -/

theorem groupGo_aux (k : Nat) :
    ∀ (slides : List SlideRec) (cur : List SlideRec) (cnum : Nat),
      cur.length < k → slides ≠ [] →
      groupGo k cur cnum slides
        = mkChapter cnum (cur ++ slides.take (k - cur.length))
          :: groupGo k [] (cnum + 1) (slides.drop (k - cur.length))
  | [], _, _, _, hne => absurd rfl hne
  | s :: rest, cur, cnum, hcur, _ => by
    simp only [groupGo]
    by_cases hfull : k ≤ (cur ++ [s]).length
    · have hk1 : k - cur.length = 1 := by
        simp only [List.length_append, List.length_cons, List.length_nil] at hfull
        omega
      rw [if_pos (Or.inl hfull), hk1]
      simp
    · by_cases hrest : rest = []
      · subst hrest
        rw [if_pos (Or.inr rfl)]
        have htake : ([s] : List SlideRec).take (k - cur.length) = [s] := by
          cases hkc : k - cur.length with
          | zero => omega
          | succ m => simp
        have hdrop : ([s] : List SlideRec).drop (k - cur.length) = [] := by
          cases hkc : k - cur.length with
          | zero => omega
          | succ m => simp
        rw [htake, hdrop]
      · rw [if_neg (by push_neg; exact ⟨Nat.lt_of_not_le hfull, hrest⟩)]
        have hlen : (cur ++ [s]).length < k := by
          simp only [List.length_append, List.length_cons, List.length_nil] at hfull ⊢
          omega
        rw [groupGo_aux k rest (cur ++ [s]) cnum hlen hrest]
        have hmk : k - cur.length = (k - (cur ++ [s]).length) + 1 := by
          simp only [List.length_append, List.length_cons, List.length_nil]
          omega
        rw [hmk]
        simp [List.take_succ_cons, List.drop_succ_cons]

theorem groupGo_step (k : Nat) (hk : 1 ≤ k) (slides : List SlideRec) (cnum : Nat)
    (hne : slides ≠ []) :
    groupGo k [] cnum slides
      = mkChapter cnum (slides.take k) :: groupGo k [] (cnum + 1) (slides.drop k) := by
  have h := groupGo_aux k slides [] cnum (by simpa using hk) hne
  simpa using h

theorem mkChapter_slide_numbers (cnum : Nat) (g : List SlideRec) :
    (mkChapter cnum g).slide_numbers = g.map (fun s => s.slide_number) := rfl

theorem nat_ceil_base (n k : Nat) (h1 : 1 ≤ n) (h2 : n ≤ k) : (n + k - 1) / k = 1 := by
  have h3 : n + k - 1 = (n - 1) + k := by omega
  rw [h3, Nat.add_div_right _ (by omega), Nat.div_eq_of_lt (by omega)]

theorem nat_ceil_step (n k : Nat) (hk : 1 ≤ k) (h : k < n) :
    (n + k - 1) / k = (n - k + k - 1) / k + 1 := by
  have e1 : n + k - 1 = (n - 1) + k := by omega
  have e2 : n - k + k - 1 = n - 1 := by omega
  rw [e1, e2, Nat.add_div_right _ (by omega)]

theorem nat_ceil_pos (n k : Nat) (hk : 1 ≤ k) (h : k < n) :
    1 ≤ (n - k + k - 1) / k := by
  have e2 : n - k + k - 1 = n - 1 := by omega
  rw [e2, Nat.one_le_div_iff (by omega)]
  omega

theorem nat_mod_sub (n k : Nat) (h : k ≤ n) : (n - k) % k = n % k := by
  conv_rhs => rw [show n = (n - k) + k by omega]
  rw [Nat.add_mod_right]

theorem groupGo_props (k : Nat) (hk : 1 ≤ k) (slides : List SlideRec) (cnum : Nat)
    (hne : slides ≠ []) :
    (groupGo k [] cnum slides).length = (slides.length + k - 1) / k
    ∧ (∀ c ∈ (groupGo k [] cnum slides).dropLast, c.slide_numbers.length = k)
    ∧ (∀ c, (groupGo k [] cnum slides).getLast? = some c →
        c.slide_numbers.length
          = if slides.length % k = 0 then k else slides.length % k)
    ∧ ((groupGo k [] cnum slides).map (fun c => c.slide_numbers)).flatten
        = slides.map (fun s => s.slide_number) := by
  have hpos : 1 ≤ slides.length := by
    cases slides with
    | nil => exact absurd rfl hne
    | cons a l => simp
  rw [groupGo_step k hk slides cnum hne]
  by_cases hle : slides.length ≤ k
  · have hdrop : slides.drop k = [] := List.drop_eq_nil_of_le hle
    have htake : slides.take k = slides := List.take_of_length_le hle
    rw [hdrop, htake]
    refine ⟨?_, ?_, ?_, ?_⟩
    · show 1 = (slides.length + k - 1) / k
      rw [nat_ceil_base slides.length k hpos hle]
    · intro c hc
      simp [groupGo] at hc
    · intro c hc
      simp only [groupGo, List.getLast?_singleton, Option.some.injEq] at hc
      subst hc
      rw [mkChapter_slide_numbers, List.length_map]
      by_cases heq : slides.length = k
      · rw [if_pos (by rw [heq]; exact Nat.mod_self k), heq]
      · rw [if_neg (by rw [Nat.mod_eq_of_lt (by omega)]; omega),
          Nat.mod_eq_of_lt (by omega)]
    · simp [groupGo, mkChapter_slide_numbers]
  · push_neg at hle
    have hrne : slides.drop k ≠ [] := by
      intro hcon
      have := congrArg List.length hcon
      simp only [List.length_drop, List.length_nil] at this
      omega
    obtain ⟨ihlen, ihdrop, ihlast, ihflat⟩ :=
      groupGo_props k hk (slides.drop k) (cnum + 1) hrne
    have hlendrop : (slides.drop k).length = slides.length - k := List.length_drop k slides
    have hchne : groupGo k [] (cnum + 1) (slides.drop k) ≠ [] := by
      intro hcon
      rw [hcon] at ihlen
      simp only [List.length_nil] at ihlen
      rw [hlendrop] at ihlen
      have hx := nat_ceil_pos slides.length k hk hle
      omega
    refine ⟨?_, ?_, ?_, ?_⟩
    · simp only [List.length_cons, ihlen, hlendrop]
      rw [nat_ceil_step slides.length k hk hle]
    · intro c hc
      rw [List.dropLast_cons_of_ne_nil hchne] at hc
      rcases List.mem_cons.mp hc with h1 | h1
      · subst h1
        rw [mkChapter_slide_numbers, List.length_map, List.length_take]
        omega
      · exact ihdrop c h1
    · intro c hc
      cases hgl : groupGo k [] (cnum + 1) (slides.drop k) with
      | nil => exact absurd hgl hchne
      | cons b bs =>
        rw [hgl, List.getLast?_cons_cons] at hc
        have hmod : (slides.drop k).length % k = slides.length % k := by
          rw [hlendrop]
          exact nat_mod_sub slides.length k (by omega)
        have := ihlast c (by rw [hgl]; exact hc)
        rwa [hmod] at this
    · simp only [List.map_cons, List.flatten_cons, ihflat, mkChapter_slide_numbers]
      rw [← List.map_append, List.take_append_drop]
termination_by slides.length
decreasing_by
  rw [List.length_drop]
  omega

/-- C7: fixed-size grouping with chapter size `k ≥ 1` over `n ≥ 1` slides
produces exactly `⌈n/k⌉` chapters; every chapter except possibly the last has
exactly `k` member slides; the final chapter has `n mod k` members (`k` when
`n mod k = 0`); and the chapters' member slide numbers, concatenated in
chapter order, are exactly the slide numbers in presentation order. -/
theorem c7_fixed_size_grouping (slides : List SlideRec) (k : Nat) (hk : 1 ≤ k)
    (hne : slides ≠ []) :
    (groupSlidesIntoChapters slides k).length = (slides.length + k - 1) / k
    ∧ (∀ c ∈ (groupSlidesIntoChapters slides k).dropLast, c.slide_numbers.length = k)
    ∧ (∀ c, (groupSlidesIntoChapters slides k).getLast? = some c →
        c.slide_numbers.length
          = if slides.length % k = 0 then k else slides.length % k)
    ∧ ((groupSlidesIntoChapters slides k).map (fun c => c.slide_numbers)).flatten
        = slides.map (fun s => s.slide_number) :=
  groupGo_props k hk slides 1 hne

/-- Closed instance of `c7_fixed_size_grouping`: five slides at two per
chapter give three chapters sized 2, 2, 1 covering slides 1..5 in order. -/
theorem c7_fixed_size_grouping_witness :
    1 ≤ 2
    ∧ ([⟨1, [], [], []⟩, ⟨2, [], [], []⟩, ⟨3, [], [], []⟩,
        ⟨4, [], [], []⟩, ⟨5, [], [], []⟩] : List SlideRec) ≠ []
    ∧ ((groupSlidesIntoChapters
          [⟨1, [], [], []⟩, ⟨2, [], [], []⟩, ⟨3, [], [], []⟩,
           ⟨4, [], [], []⟩, ⟨5, [], [], []⟩] 2).length = (5 + 2 - 1) / 2
       ∧ (∀ c ∈ (groupSlidesIntoChapters
            [⟨1, [], [], []⟩, ⟨2, [], [], []⟩, ⟨3, [], [], []⟩,
             ⟨4, [], [], []⟩, ⟨5, [], [], []⟩] 2).dropLast, c.slide_numbers.length = 2)
       ∧ (∀ c, (groupSlidesIntoChapters
            [⟨1, [], [], []⟩, ⟨2, [], [], []⟩, ⟨3, [], [], []⟩,
             ⟨4, [], [], []⟩, ⟨5, [], [], []⟩] 2).getLast? = some c →
            c.slide_numbers.length = if 5 % 2 = 0 then 2 else 5 % 2)
       ∧ ((groupSlidesIntoChapters
            [⟨1, [], [], []⟩, ⟨2, [], [], []⟩, ⟨3, [], [], []⟩,
             ⟨4, [], [], []⟩, ⟨5, [], [], []⟩] 2).map (fun c => c.slide_numbers)).flatten
           = ([⟨1, [], [], []⟩, ⟨2, [], [], []⟩, ⟨3, [], [], []⟩,
               ⟨4, [], [], []⟩, ⟨5, [], [], []⟩] : List SlideRec).map
               (fun s => s.slide_number)) :=
  ⟨by decide, by decide,
   c7_fixed_size_grouping
     [⟨1, [], [], []⟩, ⟨2, [], [], []⟩, ⟨3, [], [], []⟩, ⟨4, [], [], []⟩, ⟨5, [], [], []⟩]
     2 (by decide) (by decide)⟩

/-! ### Claim C1: image conservation and placement -/

/-- All images held by a pending-group association list, in entry order. -/
def groupsFlatten (g : List (Nat × List ImageAsset)) : List ImageAsset :=
  (g.map (fun p => p.2)).flatten

theorem imagesOfBlocks_append (a b : List Block) :
    imagesOfBlocks (a ++ b) = imagesOfBlocks a ++ imagesOfBlocks b := by
  simp [imagesOfBlocks, List.filterMap_append]

theorem imagesOfBlocks_cons_heading (l : Nat) (t : List Char) (bs : List Block) :
    imagesOfBlocks (Block.heading l t :: bs) = imagesOfBlocks bs := rfl

theorem imagesOfBlocks_cons_para (t : List Char) (bs : List Block) :
    imagesOfBlocks (Block.para t :: bs) = imagesOfBlocks bs := rfl

theorem imagesOfBlocks_cons_caption (t : List Char) (bs : List Block) :
    imagesOfBlocks (Block.caption t :: bs) = imagesOfBlocks bs := rfl

theorem imagesOfBlocks_cons_spacer (bs : List Block) :
    imagesOfBlocks (Block.spacer :: bs) = imagesOfBlocks bs := rfl

theorem imagesOfBlocks_cons_image (a : ImageAsset) (w h : ℚ) (bs : List Block) :
    imagesOfBlocks (Block.image a w h :: bs) = a :: imagesOfBlocks bs := rfl

theorem imagesOf_addImagesGo (cnum : Nat) (t : List Char) :
    ∀ (idx : Nat) (imgs : List ImageAsset),
      imagesOfBlocks (addImagesGo cnum t idx imgs) = imgs
  | _, [] => rfl
  | idx, im :: rest => by
    rw [addImagesGo, imagesOfBlocks_cons_image, imagesOfBlocks_cons_caption,
      imagesOfBlocks_cons_spacer, imagesOf_addImagesGo cnum t (idx + 1) rest]

theorem imagesOf_addImagesBlocks (cnum : Nat) (imgs : List ImageAsset) (t : List Char) :
    imagesOfBlocks (addImagesBlocks cnum imgs t) = imgs :=
  imagesOf_addImagesGo cnum t 1 imgs

theorem lookup_erase_perm :
    ∀ (pend : List (Nat × List ImageAsset)) (sn : Nat) (gs : List ImageAsset),
      lookupGroup pend sn = some gs →
      List.Perm (groupsFlatten pend) (gs ++ groupsFlatten (eraseGroup pend sn))
  | [], _, _, h => by simp [lookupGroup] at h
  | (k, g) :: rest, sn, gs, h => by
    by_cases hk : k = sn
    · rw [lookupGroup, if_pos hk] at h
      injection h with h
      subst h
      rw [eraseGroup, if_pos hk]
      exact List.Perm.refl _
    · rw [lookupGroup, if_neg hk] at h
      have ih := lookup_erase_perm rest sn gs h
      rw [eraseGroup, if_neg hk]
      simp only [groupsFlatten, List.map_cons, List.flatten_cons]
      have h1 : List.Perm (g ++ groupsFlatten rest)
          (g ++ (gs ++ groupsFlatten (eraseGroup rest sn))) :=
        List.Perm.append_left g ih
      refine h1.trans ?_
      rw [← List.append_assoc, ← List.append_assoc]
      exact List.Perm.append_right _ List.perm_append_comm

theorem addToGroups_flatten_perm (g : List (Nat × List ImageAsset)) (im : ImageAsset) :
    List.Perm (groupsFlatten (addToGroups g im)) (groupsFlatten g ++ [im]) := by
  induction g with
  | nil => simp [addToGroups, groupsFlatten]
  | cons e rest ih =>
    obtain ⟨k, gs⟩ := e
    by_cases hk : k = im.slideNumber
    · rw [addToGroups, if_pos hk]
      simp only [groupsFlatten, List.map_cons, List.flatten_cons, List.append_assoc]
      exact List.Perm.append_left gs List.perm_append_comm
    · rw [addToGroups, if_neg hk]
      simp only [groupsFlatten, List.map_cons, List.flatten_cons] at ih ⊢
      refine (List.Perm.append_left gs ih).trans ?_
      rw [List.append_assoc]

theorem buildGroups_perm (imgs : List ImageAsset) :
    List.Perm (groupsFlatten (buildGroups imgs)) imgs := by
  suffices h : ∀ g, List.Perm (groupsFlatten (imgs.foldl addToGroups g))
      (groupsFlatten g ++ imgs) by
    simpa [groupsFlatten] using h []
  induction imgs with
  | nil => intro g; simp [groupsFlatten]
  | cons x rest ih =>
    intro g
    simp only [List.foldl_cons]
    refine (ih (addToGroups g x)).trans ?_
    refine (List.Perm.append_right rest (addToGroups_flatten_perm g x)).trans ?_
    rw [List.append_assoc]
    exact List.Perm.refl _

theorem sectionImgStep_perm (cnum : Nat) (allImgs : List ImageAsset) (csn : Option Nat)
    (sh : List Char) (pend : List (Nat × List ImageAsset)) :
    List.Perm
      (imagesOfBlocks (sectionImgStep cnum allImgs csn sh pend).1
        ++ groupsFlatten (sectionImgStep cnum allImgs csn sh pend).2)
      (groupsFlatten pend) := by
  cases csn with
  | none => simp [sectionImgStep, imagesOfBlocks]
  | some sn =>
    by_cases h0 : sn = 0
    · simp [sectionImgStep, h0, imagesOfBlocks]
    · cases hl : lookupGroup pend sn with
      | none => simp [sectionImgStep, h0, hl, imagesOfBlocks]
      | some gs =>
        simp only [sectionImgStep, h0, ne_eq, not_false_eq_true, if_true, hl,
          imagesOf_addImagesBlocks]
        exact (lookup_erase_perm pend sn gs hl).symm

theorem parse_heading_or_para (s : List Char) :
    (∃ l t, parseMarkdownParagraph s = Block.heading l t)
    ∨ ∃ t, parseMarkdownParagraph s = Block.para t := by
  rw [parseMarkdownParagraph]
  split_ifs <;> first
    | exact Or.inl ⟨_, _, rfl⟩
    | exact Or.inr ⟨_, rfl⟩

theorem sectionParas_cons (ln : List Char) (rest : List (List Char)) :
    sectionParas (ln :: rest)
      = if (stripWs ln).isEmpty || hasPrefixL imgMarker (stripWs ln)
            || hasPrefixL dgMarker (stripWs ln) then sectionParas rest
        else parseMarkdownParagraph (stripWs ln) :: sectionParas rest := by
  by_cases hc : (stripWs ln).isEmpty || hasPrefixL imgMarker (stripWs ln)
      || hasPrefixL dgMarker (stripWs ln)
  · rw [if_pos hc, sectionParas, List.filterMap_cons]
    simp only [hc, if_true]
    rfl
  · rw [if_neg hc, sectionParas, List.filterMap_cons]
    simp only [hc, if_false]
    rfl

theorem sectionParas_no_images (L : List (List Char)) :
    imagesOfBlocks (sectionParas L) = [] := by
  induction L with
  | nil => rfl
  | cons ln rest ih =>
    rw [sectionParas_cons]
    by_cases hc : (stripWs ln).isEmpty || hasPrefixL imgMarker (stripWs ln)
        || hasPrefixL dgMarker (stripWs ln)
    · rw [if_pos hc]
      exact ih
    · rw [if_neg hc]
      rcases parse_heading_or_para (stripWs ln) with ⟨l, t, hp⟩ | ⟨t, hp⟩
      · rw [hp, imagesOfBlocks_cons_heading]
        exact ih
      · rw [hp, imagesOfBlocks_cons_para]
        exact ih

theorem flushBlocks_images (cnum : Nat) (allImgs : List ImageAsset)
    (pend : List (Nat × List ImageAsset)) :
    imagesOfBlocks (flushBlocks cnum allImgs pend) = groupsFlatten pend := by
  induction pend with
  | nil => rfl
  | cons e rest ih =>
    rw [show flushBlocks cnum allImgs (e :: rest)
        = addImagesBlocks cnum e.2 ((slideTitlesLookup allImgs e.1).getD
            (defaultSlideTitle e.1)) ++ flushBlocks cnum allImgs rest by
      simp [flushBlocks]]
    rw [imagesOfBlocks_append, imagesOf_addImagesBlocks, ih]
    simp [groupsFlatten]

theorem processSections_perm (cnum : Nat) (sns : List Nat) (allImgs : List ImageAsset) :
    ∀ (secs : List (List Char)) (i : Nat) (pend : List (Nat × List ImageAsset)),
      List.Perm
        (imagesOfBlocks (processSections cnum sns allImgs i secs pend).1
          ++ groupsFlatten (processSections cnum sns allImgs i secs pend).2)
        (groupsFlatten pend)
  | [], i, pend => by
    rw [processSections_nil]
    exact List.Perm.refl _
  | sec :: rest, i, pend => by
    by_cases hb : stripWs sec = []
    · rw [processSections_cons_blank _ _ _ _ _ _ _ hb]
      exact processSections_perm cnum sns allImgs rest (i + 1) pend
    · obtain ⟨l0, restLines, hsp⟩ : ∃ a b, splitNl (stripWs sec) = a :: b := by
        cases hq : splitNl (stripWs sec) with
        | nil => exact absurd hq (splitNl_ne_nil _)
        | cons a b => exact ⟨a, b, rfl⟩
      rw [processSections_cons_ne _ _ _ _ _ _ _ hb hsp]
      have hih := processSections_perm cnum sns allImgs rest (i + 1)
        (sectionImgStep cnum allImgs (csnAt sns i) (stripWs l0) pend).2
      have hstep := sectionImgStep_perm cnum allImgs (csnAt sns i) (stripWs l0) pend
      have hhead : imagesOfBlocks
          (parseMarkdownParagraph (hh2 ++ stripWs l0) ::
            (sectionImgStep cnum allImgs (csnAt sns i) (stripWs l0) pend).1
            ++ sectionParas restLines
            ++ (processSections cnum sns allImgs (i + 1) rest
                (sectionImgStep cnum allImgs (csnAt sns i) (stripWs l0) pend).2).1)
          = imagesOfBlocks (sectionImgStep cnum allImgs (csnAt sns i) (stripWs l0) pend).1
            ++ imagesOfBlocks (processSections cnum sns allImgs (i + 1) rest
                (sectionImgStep cnum allImgs (csnAt sns i) (stripWs l0) pend).2).1 := by
        rcases parse_heading_or_para (hh2 ++ stripWs l0) with ⟨l, t, hp⟩ | ⟨t, hp⟩ <;>
          rw [hp] <;>
          simp [imagesOfBlocks_append, sectionParas_no_images,
            imagesOfBlocks_cons_heading, imagesOfBlocks_cons_para]
      rw [hhead, List.append_assoc]
      exact (List.Perm.append_left _ hih).trans hstep

/-- C1 (part): the image assets appearing in the full output block sequence
of the grouped-chapter assembler are a permutation of the chapter's image
list — every image appears exactly as often as in the input, hence exactly
once for the distinct extracted assets, and none is dropped. -/
theorem processGrouped_images_perm (cnum : Nat) (sns : List Nat) (imgs : List ImageAsset)
    (text : List Char) :
    List.Perm (imagesOfBlocks (processGroupedChapterContent cnum sns imgs text)) imgs := by
  rw [processGroupedChapterContent, imagesOfBlocks_append, flushBlocks_images]
  refine List.Perm.trans ?_ (buildGroups_perm imgs)
  exact processSections_perm cnum sns imgs (splitOnSep hh2 text) 0 (buildGroups imgs)

/-! ### Placement structure of the assembler output -/

/-- Blocks that form an image run: the image itself, its caption, and the
trailing spacer. -/
def isImgCapSp : Block → Bool
  | Block.image _ _ _ => true
  | Block.caption _ => true
  | Block.spacer => true
  | _ => false

/-- Text blocks: headings and paragraphs. -/
def isHeadPara : Block → Bool
  | Block.heading _ _ => true
  | Block.para _ => true
  | _ => false

theorem dropWhile_length_le {α : Type _} (p : α → Bool) :
    ∀ l : List α, (l.dropWhile p).length ≤ l.length
  | [] => Nat.le_refl 0
  | a :: l => by
    rw [List.dropWhile_cons]
    cases h : p a with
    | true =>
      simp only [if_true]
      exact Nat.le_succ_of_le (dropWhile_length_le p l)
    | false => simp

/-- Image blocks appear only in runs immediately following a heading block,
except for a final flush suffix consisting solely of image/caption/spacer
blocks: the scan consumes a heading's image run, walks over paragraphs, and
any image run not introduced by a heading must extend to the end of the
list. -/
def wellPlaced : List Block → Bool
  | [] => true
  | Block.heading _ _ :: rest => wellPlaced (rest.dropWhile isImgCapSp)
  | Block.para _ :: rest => wellPlaced rest
  | b :: rest => (b :: rest).all isImgCapSp
termination_by l => l.length
decreasing_by
  · exact Nat.lt_succ_of_le (dropWhile_length_le _ _)
  · simp

theorem wellPlaced_nil : wellPlaced [] = true := by rw [wellPlaced]

theorem wellPlaced_heading (l : Nat) (t : List Char) (rest : List Block) :
    wellPlaced (Block.heading l t :: rest) = wellPlaced (rest.dropWhile isImgCapSp) := by
  rw [wellPlaced]

theorem wellPlaced_para (t : List Char) (rest : List Block) :
    wellPlaced (Block.para t :: rest) = wellPlaced rest := by
  rw [wellPlaced]

theorem wellPlaced_image (a : ImageAsset) (w h : ℚ) (rest : List Block) :
    wellPlaced (Block.image a w h :: rest)
      = (Block.image a w h :: rest).all isImgCapSp := by
  rw [wellPlaced] <;> simp

theorem wellPlaced_caption (t : List Char) (rest : List Block) :
    wellPlaced (Block.caption t :: rest) = (Block.caption t :: rest).all isImgCapSp := by
  rw [wellPlaced] <;> simp

theorem wellPlaced_spacer (rest : List Block) :
    wellPlaced (Block.spacer :: rest) = (Block.spacer :: rest).all isImgCapSp := by
  rw [wellPlaced] <;> simp

theorem all_ics_wellPlaced :
    ∀ L : List Block, L.all isImgCapSp = true → wellPlaced L = true
  | [], _ => wellPlaced_nil
  | b :: rest, h => by
    have hb : isImgCapSp b = true := by
      simp only [List.all_cons, Bool.and_eq_true] at h
      exact h.1
    cases b with
    | heading l t => simp [isImgCapSp] at hb
    | para t => simp [isImgCapSp] at hb
    | image a w hh => rw [wellPlaced_image]; exact h
    | caption t => rw [wellPlaced_caption]; exact h
    | spacer => rw [wellPlaced_spacer]; exact h

/-- Tail shapes the section loop can produce: well placed, and either empty,
heading-led, or a pure image/caption/spacer flush. -/
def invTail (Y : List Block) : Prop :=
  wellPlaced Y = true
    ∧ (Y = [] ∨ (∃ l t rest, Y = Block.heading l t :: rest) ∨ Y.all isImgCapSp = true)

theorem dropWhile_invTail (Y : List Block) (h : invTail Y) :
    wellPlaced (Y.dropWhile isImgCapSp) = true := by
  obtain ⟨hwp, hcase⟩ := h
  rcases hcase with h1 | ⟨l, t, rest, h1⟩ | h1
  · subst h1
    simpa using hwp
  · subst h1
    rw [List.dropWhile_cons]
    have hf : isImgCapSp (Block.heading l t) = false := rfl
    rw [hf]
    simpa using hwp
  · have : Y.dropWhile isImgCapSp = [] := by
      rw [List.dropWhile_eq_nil_iff]
      intro x hx
      simp only [List.all_eq_true] at h1
      exact h1 x hx
    rw [this]
    exact wellPlaced_nil

theorem headPara_prefix_wellPlaced :
    ∀ (P Y : List Block), P.all isHeadPara = true → invTail Y →
      wellPlaced (P ++ Y) = true
  | [], _, _, hY => hY.1
  | b :: P', Y, hP, hY => by
    simp only [List.all_cons, Bool.and_eq_true] at hP
    obtain ⟨hb, hP'⟩ := hP
    cases b with
    | para t =>
      rw [List.cons_append, wellPlaced_para]
      exact headPara_prefix_wellPlaced P' Y hP' hY
    | heading l t =>
      rw [List.cons_append, wellPlaced_heading]
      cases hPc : P' with
      | nil =>
        simp only [List.nil_append]
        exact dropWhile_invTail Y hY
      | cons q Q =>
        subst hPc
        simp only [List.all_cons, Bool.and_eq_true] at hP'
        have hq2 : isImgCapSp q = false := by
          cases q <;> simp [isHeadPara, isImgCapSp] at hP' ⊢
        rw [List.cons_append, List.dropWhile_cons, hq2]
        simp only [Bool.false_eq_true, if_false]
        rw [← List.cons_append]
        exact headPara_prefix_wellPlaced (q :: Q) Y
          (by simp [List.all_cons, hP'.1, hP'.2]) hY
    | image a w h => simp [isHeadPara] at hb
    | caption t => simp [isHeadPara] at hb
    | spacer => simp [isHeadPara] at hb

theorem dropWhile_headPara_append (P C : List Block) (hP : P.all isHeadPara = true)
    (hC : invTail C) : wellPlaced ((P ++ C).dropWhile isImgCapSp) = true := by
  cases P with
  | nil => simpa using dropWhile_invTail C hC
  | cons q Q =>
    simp only [List.all_cons, Bool.and_eq_true] at hP
    have hq2 : isImgCapSp q = false := by
      cases q <;> simp [isHeadPara, isImgCapSp] at hP ⊢
    rw [List.cons_append, List.dropWhile_cons, hq2]
    simp only [Bool.false_eq_true, if_false]
    rw [← List.cons_append]
    exact headPara_prefix_wellPlaced (q :: Q) C (by simp [List.all_cons, hP.1, hP.2]) hC

theorem addImagesGo_all_ics (cnum : Nat) (t : List Char) :
    ∀ (idx : Nat) (imgs : List ImageAsset),
      (addImagesGo cnum t idx imgs).all isImgCapSp = true
  | _, [] => rfl
  | idx, im :: rest => by
    rw [addImagesGo]
    simp only [List.all_cons, Bool.and_eq_true]
    exact ⟨rfl, rfl, rfl, addImagesGo_all_ics cnum t (idx + 1) rest⟩

theorem sectionImgStep_all_ics (cnum : Nat) (allImgs : List ImageAsset) (csn : Option Nat)
    (sh : List Char) (pend : List (Nat × List ImageAsset)) :
    ((sectionImgStep cnum allImgs csn sh pend).1).all isImgCapSp = true := by
  cases csn with
  | none => rfl
  | some sn =>
    by_cases h0 : sn = 0
    · simp [sectionImgStep, h0]
    · cases hl : lookupGroup pend sn with
      | none => simp [sectionImgStep, h0, hl]
      | some gs =>
        simp only [sectionImgStep, h0, ne_eq, not_false_eq_true, if_true, hl]
        exact addImagesGo_all_ics cnum _ 1 gs

theorem sectionParas_all_headPara (L : List (List Char)) :
    (sectionParas L).all isHeadPara = true := by
  induction L with
  | nil => rfl
  | cons ln rest ih =>
    rw [sectionParas_cons]
    by_cases hc : (stripWs ln).isEmpty || hasPrefixL imgMarker (stripWs ln)
        || hasPrefixL dgMarker (stripWs ln)
    · rw [if_pos hc]
      exact ih
    · rw [if_neg hc]
      simp only [List.all_cons, Bool.and_eq_true]
      refine ⟨?_, ih⟩
      rcases parse_heading_or_para (stripWs ln) with ⟨l, t, hp⟩ | ⟨t, hp⟩ <;> rw [hp] <;> rfl

theorem flushBlocks_all_ics (cnum : Nat) (allImgs : List ImageAsset)
    (pend : List (Nat × List ImageAsset)) :
    (flushBlocks cnum allImgs pend).all isImgCapSp = true := by
  induction pend with
  | nil => rfl
  | cons e rest ih =>
    rw [show flushBlocks cnum allImgs (e :: rest)
        = addImagesBlocks cnum e.2 ((slideTitlesLookup allImgs e.1).getD
            (defaultSlideTitle e.1)) ++ flushBlocks cnum allImgs rest by
      simp [flushBlocks]]
    rw [List.all_append]
    simp only [Bool.and_eq_true]
    exact ⟨addImagesGo_all_ics cnum _ 1 e.2, ih⟩

theorem processSections_invTail (cnum : Nat) (sns : List Nat) (allImgs : List ImageAsset) :
    ∀ (secs : List (List Char)) (i : Nat) (pend : List (Nat × List ImageAsset))
      (tail : List Block), invTail tail →
      invTail ((processSections cnum sns allImgs i secs pend).1 ++ tail)
  | [], i, pend, tail, ht => by
    rw [processSections_nil]
    simpa using ht
  | sec :: rest, i, pend, tail, ht => by
    by_cases hb : stripWs sec = []
    · rw [processSections_cons_blank _ _ _ _ _ _ _ hb]
      exact processSections_invTail cnum sns allImgs rest (i + 1) pend tail ht
    · obtain ⟨l0, restLines, hsp⟩ : ∃ a b, splitNl (stripWs sec) = a :: b := by
        cases hq : splitNl (stripWs sec) with
        | nil => exact absurd hq (splitNl_ne_nil _)
        | cons a b => exact ⟨a, b, rfl⟩
      rw [processSections_cons_ne _ _ _ _ _ _ _ hb hsp]
      have hrec := processSections_invTail cnum sns allImgs rest (i + 1)
        (sectionImgStep cnum allImgs (csnAt sns i) (stripWs l0) pend).2 tail ht
      obtain ⟨t, hhB⟩ := parse_hh2_heading l0
      simp only [List.cons_append, List.append_assoc]
      constructor
      · rw [hhB, wellPlaced_heading]
        have hstep : ((sectionImgStep cnum allImgs (csnAt sns i) (stripWs l0) pend).1).all
            isImgCapSp = true := sectionImgStep_all_ics cnum allImgs _ _ pend
        have hdw : ((sectionImgStep cnum allImgs (csnAt sns i) (stripWs l0) pend).1).dropWhile
            isImgCapSp = [] := by
          rw [List.dropWhile_eq_nil_iff]
          intro x hx
          simp only [List.all_eq_true] at hstep
          exact hstep x hx
        rw [List.dropWhile_append, hdw]
        simp only [List.isEmpty_nil, if_true]
        exact dropWhile_headPara_append (sectionParas restLines) _
          (sectionParas_all_headPara restLines) hrec
      · exact Or.inr (Or.inl ⟨2, t, _, by rw [hhB]⟩)

/-! ### Flush order under the grouping invariant -/

theorem eraseGroup_sublist :
    ∀ (g : List (Nat × List ImageAsset)) (n : Nat), List.Sublist (eraseGroup g n) g
  | [], _ => List.Sublist.refl []
  | (k, gs) :: rest, n => by
    by_cases hk : k = n
    · rw [eraseGroup, if_pos hk]
      exact List.sublist_cons_self _ _
    · rw [eraseGroup, if_neg hk]
      exact List.Sublist.cons₂ _ (eraseGroup_sublist rest n)

theorem sectionImgStep_pend_sublist (cnum : Nat) (allImgs : List ImageAsset)
    (csn : Option Nat) (sh : List Char) (pend : List (Nat × List ImageAsset)) :
    List.Sublist (sectionImgStep cnum allImgs csn sh pend).2 pend := by
  cases csn with
  | none => exact List.Sublist.refl _
  | some sn =>
    by_cases h0 : sn = 0
    · simp only [sectionImgStep, h0, ne_eq, not_true_eq_false, if_false]
      exact List.Sublist.refl _
    · cases hl : lookupGroup pend sn with
      | none =>
        simp only [sectionImgStep, h0, ne_eq, not_false_eq_true, if_true, hl]
        exact List.Sublist.refl _
      | some gs =>
        simp only [sectionImgStep, h0, ne_eq, not_false_eq_true, if_true, hl]
        exact eraseGroup_sublist pend sn

theorem processSections_pend_sublist (cnum : Nat) (sns : List Nat)
    (allImgs : List ImageAsset) :
    ∀ (secs : List (List Char)) (i : Nat) (pend : List (Nat × List ImageAsset)),
      List.Sublist (processSections cnum sns allImgs i secs pend).2 pend
  | [], i, pend => by
    rw [processSections_nil]
  | sec :: rest, i, pend => by
    by_cases hb : stripWs sec = []
    · rw [processSections_cons_blank _ _ _ _ _ _ _ hb]
      exact processSections_pend_sublist cnum sns allImgs rest (i + 1) pend
    · obtain ⟨l0, restLines, hsp⟩ : ∃ a b, splitNl (stripWs sec) = a :: b := by
        cases hq : splitNl (stripWs sec) with
        | nil => exact absurd hq (splitNl_ne_nil _)
        | cons a b => exact ⟨a, b, rfl⟩
      rw [processSections_cons_ne _ _ _ _ _ _ _ hb hsp]
      exact (processSections_pend_sublist cnum sns allImgs rest (i + 1) _).trans
        (sectionImgStep_pend_sublist cnum allImgs _ _ pend)

theorem groupsFlatten_sublist {g₁ g₂ : List (Nat × List ImageAsset)}
    (h : List.Sublist g₁ g₂) : List.Sublist (groupsFlatten g₁) (groupsFlatten g₂) := by
  induction h with
  | slnil => exact List.Sublist.refl _
  | cons e h ih =>
    simp only [groupsFlatten, List.map_cons, List.flatten_cons] at ih ⊢
    exact ih.trans (List.sublist_append_right _ _)
  | cons₂ e h ih =>
    simp only [groupsFlatten, List.map_cons, List.flatten_cons] at ih ⊢
    exact List.Sublist.append_left ih _

theorem addToGroups_keys :
    ∀ (g : List (Nat × List ImageAsset)) (im : ImageAsset) (key : Nat),
      key ∈ (addToGroups g im).map Prod.fst →
      key ∈ g.map Prod.fst ∨ key = im.slideNumber
  | [], im, key, h => by
    simp [addToGroups] at h
    exact Or.inr h
  | (k, gs) :: rest, im, key, h => by
    by_cases hk : k = im.slideNumber
    · rw [addToGroups, if_pos hk] at h
      simp only [List.map_cons, List.mem_cons] at h
      rcases h with h1 | h1
      · exact Or.inl (by rw [List.map_cons, h1]; exact List.mem_cons_self _ _)
      · exact Or.inl (by rw [List.map_cons]; exact List.mem_cons_of_mem _ h1)
    · rw [addToGroups, if_neg hk] at h
      simp only [List.map_cons, List.mem_cons] at h
      rcases h with h1 | h1
      · exact Or.inl (by rw [List.map_cons]; simp [h1])
      · rcases addToGroups_keys rest im key h1 with h2 | h2
        · exact Or.inl (by rw [List.map_cons]; exact List.mem_cons_of_mem _ h2)
        · exact Or.inr h2

theorem foldl_groups_keys :
    ∀ (imgs : List ImageAsset) (g : List (Nat × List ImageAsset)) (key : Nat),
      key ∈ (imgs.foldl addToGroups g).map Prod.fst →
      key ∈ g.map Prod.fst ∨ key ∈ imgs.map (fun im => im.slideNumber)
  | [], _, _, h => Or.inl (by simpa using h)
  | x :: rest, g, key, h => by
    rw [List.foldl_cons] at h
    rcases foldl_groups_keys rest (addToGroups g x) key h with h1 | h1
    · rcases addToGroups_keys g x key h1 with h2 | h2
      · exact Or.inl h2
      · exact Or.inr (by rw [List.map_cons, h2]; exact List.mem_cons_self _ _)
    · exact Or.inr (by rw [List.map_cons]; exact List.mem_cons_of_mem _ h1)

theorem buildGroups_keys (imgs : List ImageAsset) (key : Nat)
    (h : key ∈ (buildGroups imgs).map Prod.fst) :
    key ∈ imgs.map (fun im => im.slideNumber) := by
  rcases foldl_groups_keys imgs [] key h with h1 | h1
  · simp at h1
  · exact h1

theorem addToGroups_last :
    ∀ (g : List (Nat × List ImageAsset)) (im : ImageAsset),
      List.Pairwise (fun a b => a.1 < b.1) g →
      (∀ e ∈ g, e.1 ≤ im.slideNumber) →
      groupsFlatten (addToGroups g im) = groupsFlatten g ++ [im]
      ∧ List.Pairwise (fun a b => a.1 < b.1) (addToGroups g im)
  | [], im, _, _ => by
    constructor
    · simp [addToGroups, groupsFlatten]
    · simp [addToGroups]
  | (k, gs) :: rest, im, hp, hb => by
    rw [List.pairwise_cons] at hp
    obtain ⟨hklt, hprest⟩ := hp
    by_cases hk : k = im.slideNumber
    · rw [addToGroups, if_pos hk]
      have hrest_nil : rest = [] := by
        cases rest with
        | nil => rfl
        | cons e es =>
          exfalso
          have h1 : k < e.1 := hklt e (by simp)
          have h2 : e.1 ≤ im.slideNumber := hb e (by simp)
          omega
      subst hrest_nil
      constructor
      · simp [groupsFlatten]
      · simp
    · rw [addToGroups, if_neg hk]
      have hble : ∀ e ∈ rest, e.1 ≤ im.slideNumber := fun e he => hb e (by simp [he])
      obtain ⟨ihf, ihp⟩ := addToGroups_last rest im hprest hble
      constructor
      · simp only [groupsFlatten, List.map_cons, List.flatten_cons] at ihf ⊢
        rw [ihf, List.append_assoc]
      · rw [List.pairwise_cons]
        refine ⟨?_, ihp⟩
        intro e he
        rcases addToGroups_keys rest im e.1 (List.mem_map_of_mem Prod.fst he) with h1 | h1
        · simp only [List.mem_map] at h1
          obtain ⟨e', he', hke⟩ := h1
          have := hklt e' he'
          omega
        · have hkb : k ≤ im.slideNumber := hb (k, gs) (by simp)
          omega

theorem buildGroups_snoc (l : List ImageAsset) (x : ImageAsset) :
    buildGroups (l ++ [x]) = addToGroups (buildGroups l) x := by
  simp [buildGroups, List.foldl_append]

theorem buildGroups_sorted :
    ∀ imgs : List ImageAsset,
      List.Pairwise (fun a b => a.slideNumber ≤ b.slideNumber) imgs →
      groupsFlatten (buildGroups imgs) = imgs
      ∧ List.Pairwise (fun a b => a.1 < b.1) (buildGroups imgs) := by
  intro imgs
  induction imgs using List.reverseRecOn with
  | nil =>
    intro _
    constructor <;> simp [buildGroups, groupsFlatten]
  | append_singleton l x ih =>
    intro hs
    have hsl : List.Pairwise (fun a b => a.slideNumber ≤ b.slideNumber) l :=
      hs.sublist (List.sublist_append_left l [x])
    have hbnd : ∀ y ∈ l, y.slideNumber ≤ x.slideNumber := by
      have h2 := (List.pairwise_append.mp hs).2.2
      exact fun y hy => h2 y hy x (by simp)
    obtain ⟨ihf, ihp⟩ := ih hsl
    have hkey : ∀ e ∈ buildGroups l, e.1 ≤ x.slideNumber := by
      intro e he
      have hk := buildGroups_keys l e.1 (List.mem_map_of_mem Prod.fst he)
      simp only [List.mem_map] at hk
      obtain ⟨y, hy, hyk⟩ := hk
      rw [← hyk]
      exact hbnd y hy
    obtain ⟨haf, hap⟩ := addToGroups_last (buildGroups l) x ihp hkey
    rw [buildGroups_snoc]
    exact ⟨by rw [haf, ihf], hap⟩

/-! ### Placement observers for the section loop -/

/-- First line of a non-blank section as used by the loop body: the head of
the stripped section's line split, re-emitted with a `'## '` marker as the
section heading. -/
def sectionHeadLine (sec : List Char) : List Char :=
  match splitNl (stripWs sec) with
  | [] => []
  | l0 :: _ => l0

/-- Whether (and where) a slide number is reached during section processing:
the first non-blank section, counting from `enumerate` index `i`, whose
positional association `csnAt` is `sn`.  Mirrors the only loop iterations of
src/app.py lines 991-1029 that can emit the pending images of slide `sn`. -/
def firstReach (sns : List Nat) (sn : Nat) : Nat → List (List Char) → Option (List Char)
  | _, [] => none
  | i, sec :: rest =>
    if stripWs sec = [] then firstReach sns sn (i + 1) rest
    else if csnAt sns i = some sn then some sec
    else firstReach sns sn (i + 1) rest

/-- One-Image-plus-one-Caption pairing: every `image` block of the sequence
is immediately followed by a caption built by `captionText` from the image's
own diagram flag, then a spacer — the emission pattern of
`_add_images_to_story_with_title`. -/
def pairedBlocks (cnum : Nat) (L : List Block) : Prop :=
  ∀ (P : List Block) (a : ImageAsset) (w h : ℚ) (Q : List Block),
    L = P ++ Block.image a w h :: Q →
    ∃ (t : List Char) (j : Nat) (Q' : List Block),
      Q = Block.caption (captionText cnum j a.isDiagram t) :: Block.spacer :: Q'

theorem pairedBlocks_nil (cnum : Nat) : pairedBlocks cnum [] := by
  intro P a w h Q hPQ
  cases P <;> simp at hPQ

theorem pairedBlocks_cons_nonimage {cnum : Nat} {b : Block} {L : List Block}
    (hb : ∀ a w h, b ≠ Block.image a w h) (hL : pairedBlocks cnum L) :
    pairedBlocks cnum (b :: L) := by
  intro P a w h Q hPQ
  cases P with
  | nil =>
    simp only [List.nil_append] at hPQ
    injection hPQ with h1 h2
    exact absurd h1 (hb a w h)
  | cons c P2 =>
    rw [List.cons_append] at hPQ
    injection hPQ with h1 h2
    exact hL P2 a w h Q h2

theorem pairedBlocks_append {cnum : Nat} :
    ∀ {X Y : List Block}, pairedBlocks cnum X → pairedBlocks cnum Y →
      pairedBlocks cnum (X ++ Y)
  | [], _, _, hY => hY
  | b :: X2, Y, hX, hY => by
    have hX2 : pairedBlocks cnum X2 := by
      intro P a w h Q hPQ
      exact hX (b :: P) a w h Q (by rw [hPQ, List.cons_append])
    intro P a w h Q hPQ
    cases P with
    | nil =>
      simp only [List.nil_append, List.cons_append] at hPQ
      injection hPQ with h1 h2
      subst h1
      obtain ⟨t, j, X3, hXd⟩ := hX [] a w h X2 (by rw [List.nil_append])
      refine ⟨t, j, X3 ++ Y, ?_⟩
      rw [← h2, hXd, List.cons_append, List.cons_append]
    | cons c P2 =>
      rw [List.cons_append, List.cons_append] at hPQ
      injection hPQ with h1 h2
      exact pairedBlocks_append hX2 hY P2 a w h Q h2

theorem pairedBlocks_of_no_images {cnum : Nat} {L : List Block}
    (h : imagesOfBlocks L = []) : pairedBlocks cnum L := by
  intro P a w hw Q hPQ
  have hmem : a ∈ imagesOfBlocks L := by
    rw [hPQ, imagesOfBlocks_append, imagesOfBlocks_cons_image]
    exact List.mem_append_right _ (List.mem_cons_self _ _)
  rw [h] at hmem
  exact absurd hmem (List.not_mem_nil a)

theorem pairedBlocks_addImagesGo (cnum : Nat) (t : List Char) :
    ∀ (j : Nat) (g : List ImageAsset), pairedBlocks cnum (addImagesGo cnum t j g)
  | _, [] => pairedBlocks_nil cnum
  | j, im :: rest => by
    intro P a w h Q hPQ
    rw [addImagesGo] at hPQ
    cases P with
    | nil =>
      simp only [List.nil_append] at hPQ
      injection hPQ with h1 h2
      injection h1 with ha hw hh
      subst ha
      exact ⟨t, j, addImagesGo cnum t (j + 1) rest, by rw [← h2]⟩
    | cons c P2 =>
      rw [List.cons_append] at hPQ
      injection hPQ with h1 h2
      cases P2 with
      | nil =>
        rw [List.nil_append] at h2
        simp at h2
      | cons d P3 =>
        rw [List.cons_append] at h2
        injection h2 with h3 h4
        cases P3 with
        | nil =>
          rw [List.nil_append] at h4
          simp at h4
        | cons e P4 =>
          rw [List.cons_append] at h4
          injection h4 with h5 h6
          exact pairedBlocks_addImagesGo cnum t (j + 1) rest P4 a w h Q h6

theorem pairedBlocks_addImagesBlocks (cnum : Nat) (g : List ImageAsset) (t : List Char) :
    pairedBlocks cnum (addImagesBlocks cnum g t) :=
  pairedBlocks_addImagesGo cnum t 1 g

theorem lookupGroup_of_mem :
    ∀ {pend : List (Nat × List ImageAsset)} {sn : Nat} {g : List ImageAsset},
      List.Pairwise (fun p q => p.1 ≠ q.1) pend → (sn, g) ∈ pend →
      lookupGroup pend sn = some g
  | [], _, _, _, hmem => absurd hmem (List.not_mem_nil _)
  | (k, gs) :: rest, sn, g, hdist, hmem => by
    rw [List.pairwise_cons] at hdist
    rcases List.mem_cons.mp hmem with heq | hmem2
    · rw [Prod.mk.injEq] at heq
      rw [lookupGroup, if_pos heq.1.symm]
      rw [heq.2]
    · have hk : k ≠ sn := hdist.1 (sn, g) hmem2
      rw [lookupGroup, if_neg hk]
      exact lookupGroup_of_mem hdist.2 hmem2

theorem mem_eraseGroup_of_ne :
    ∀ {pend : List (Nat × List ImageAsset)} {sn : Nat} {g : List ImageAsset} {n : Nat},
      (sn, g) ∈ pend → sn ≠ n → (sn, g) ∈ eraseGroup pend n
  | [], _, _, _, hmem, _ => absurd hmem (List.not_mem_nil _)
  | (k, gs) :: rest, sn, g, n, hmem, hne => by
    rcases List.mem_cons.mp hmem with heq | hmem2
    · have h1 : sn = k := by rw [Prod.mk.injEq] at heq; exact heq.1
      rw [eraseGroup, if_neg (fun hc => hne (h1.trans hc))]
      rw [heq]
      exact List.mem_cons_self _ _
    · rw [eraseGroup]
      by_cases hk : k = n
      · rw [if_pos hk]
        exact hmem2
      · rw [if_neg hk]
        exact List.mem_cons_of_mem _ (mem_eraseGroup_of_ne hmem2 hne)

theorem sectionImgStep_hit (cnum : Nat) (allImgs : List ImageAsset) (sn : Nat)
    (sh : List Char) (pend : List (Nat × List ImageAsset)) (g : List ImageAsset)
    (h0 : sn ≠ 0) (hl : lookupGroup pend sn = some g) :
    sectionImgStep cnum allImgs (some sn) sh pend
      = (addImagesBlocks cnum g ((slideTitlesLookup allImgs sn).getD sh),
         eraseGroup pend sn) := by
  simp only [sectionImgStep, h0, ne_eq, not_false_eq_true, if_true, hl]

theorem sectionImgStep_pend_keep {cnum : Nat} {allImgs : List ImageAsset}
    {csn : Option Nat} {sh : List Char} {pend : List (Nat × List ImageAsset)}
    {sn : Nat} {g : List ImageAsset} (hmem : (sn, g) ∈ pend)
    (h : csn ≠ some sn ∨ sn = 0) :
    (sn, g) ∈ (sectionImgStep cnum allImgs csn sh pend).2 := by
  cases csn with
  | none => simpa [sectionImgStep] using hmem
  | some m =>
    by_cases h0 : m = 0
    · simp only [sectionImgStep, h0, ne_eq, not_true_eq_false, if_false]
      exact hmem
    · have hm : sn ≠ m := by
        rcases h with h | h
        · intro hc
          exact h (by rw [hc])
        · intro hc
          exact h0 (by rw [← hc, h])
      cases hl : lookupGroup pend m with
      | none =>
        simp only [sectionImgStep, h0, ne_eq, not_false_eq_true, if_true, hl]
        exact hmem
      | some gs =>
        simp only [sectionImgStep, h0, ne_eq, not_false_eq_true, if_true, hl]
        exact mem_eraseGroup_of_ne hmem hm

theorem sectionImgStep_fst_paired (cnum : Nat) (allImgs : List ImageAsset)
    (csn : Option Nat) (sh : List Char) (pend : List (Nat × List ImageAsset)) :
    pairedBlocks cnum (sectionImgStep cnum allImgs csn sh pend).1 := by
  cases csn with
  | none => exact pairedBlocks_nil cnum
  | some m =>
    by_cases h0 : m = 0
    · simp only [sectionImgStep, h0, ne_eq, not_true_eq_false, if_false]
      exact pairedBlocks_nil cnum
    · cases hl : lookupGroup pend m with
      | none =>
        simp only [sectionImgStep, h0, ne_eq, not_false_eq_true, if_true, hl]
        exact pairedBlocks_nil cnum
      | some gs =>
        simp only [sectionImgStep, h0, ne_eq, not_false_eq_true, if_true, hl]
        exact pairedBlocks_addImagesBlocks cnum gs _

theorem addToGroups_mem_self :
    ∀ (pend : List (Nat × List ImageAsset)) (b : ImageAsset),
      ∃ g, (b.slideNumber, g) ∈ addToGroups pend b ∧ b ∈ g
  | [], b =>
    ⟨[b], by rw [addToGroups]; exact List.mem_cons_self _ _, List.mem_cons_self _ _⟩
  | (k, gs) :: rest, b => by
    by_cases hk : k = b.slideNumber
    · refine ⟨gs ++ [b], ?_, by simp⟩
      rw [addToGroups, if_pos hk, ← hk]
      exact List.mem_cons_self _ _
    · obtain ⟨g, hg, hbg⟩ := addToGroups_mem_self rest b
      refine ⟨g, ?_, hbg⟩
      rw [addToGroups, if_neg hk]
      exact List.mem_cons_of_mem _ hg

theorem addToGroups_mem_mono :
    ∀ (pend : List (Nat × List ImageAsset)) (b : ImageAsset) {sn : Nat}
      {g : List ImageAsset}, (sn, g) ∈ pend →
      ∃ g2, (sn, g2) ∈ addToGroups pend b ∧ ∀ x ∈ g, x ∈ g2
  | [], _, _, _, hmem => absurd hmem (List.not_mem_nil _)
  | (k, gs) :: rest, b, sn, g, hmem => by
    by_cases hk : k = b.slideNumber
    · rw [addToGroups, if_pos hk]
      rcases List.mem_cons.mp hmem with heq | hmem2
      · rw [Prod.mk.injEq] at heq
        refine ⟨gs ++ [b], ?_, ?_⟩
        · rw [heq.1]
          exact List.mem_cons_self _ _
        · intro x hx
          exact List.mem_append_left _ (heq.2 ▸ hx)
      · exact ⟨g, List.mem_cons_of_mem _ hmem2, fun x hx => hx⟩
    · rw [addToGroups, if_neg hk]
      rcases List.mem_cons.mp hmem with heq | hmem2
      · exact ⟨g, by rw [heq]; exact List.mem_cons_self _ _, fun x hx => hx⟩
      · obtain ⟨g2, hg2, hmono⟩ := addToGroups_mem_mono rest b hmem2
        exact ⟨g2, List.mem_cons_of_mem _ hg2, hmono⟩

theorem buildGroups_mem_self (imgs : List ImageAsset) :
    ∀ a ∈ imgs, ∃ g, (a.slideNumber, g) ∈ buildGroups imgs ∧ a ∈ g := by
  induction imgs using List.reverseRecOn with
  | nil =>
    intro a ha
    exact absurd ha (List.not_mem_nil a)
  | append_singleton l x ih =>
    intro a ha
    rw [buildGroups_snoc]
    rcases List.mem_append.mp ha with ha2 | ha2
    · obtain ⟨g, hg, hag⟩ := ih a ha2
      obtain ⟨g2, hg2, hmono⟩ := addToGroups_mem_mono (buildGroups l) x hg
      exact ⟨g2, hg2, hmono a hag⟩
    · rw [List.mem_singleton.mp ha2]
      exact addToGroups_mem_self (buildGroups l) x

theorem addToGroups_pairwise_keys :
    ∀ {pend : List (Nat × List ImageAsset)} (b : ImageAsset),
      List.Pairwise (fun p q => p.1 ≠ q.1) pend →
      List.Pairwise (fun p q => p.1 ≠ q.1) (addToGroups pend b)
  | [], b, _ => by simp [addToGroups]
  | (k, gs) :: rest, b, hp => by
    rw [List.pairwise_cons] at hp
    by_cases hk : k = b.slideNumber
    · rw [addToGroups, if_pos hk, List.pairwise_cons]
      exact ⟨hp.1, hp.2⟩
    · rw [addToGroups, if_neg hk, List.pairwise_cons]
      refine ⟨?_, addToGroups_pairwise_keys b hp.2⟩
      intro q hq
      rcases addToGroups_keys rest b q.1 (List.mem_map_of_mem Prod.fst hq) with h1 | h1
      · simp only [List.mem_map] at h1
        obtain ⟨e, he, hek⟩ := h1
        exact hek ▸ hp.1 e he
      · rw [h1]
        exact hk
  termination_by pend _ _ => pend.length

theorem buildGroups_pairwise_keys (imgs : List ImageAsset) :
    List.Pairwise (fun p q => p.1 ≠ q.1) (buildGroups imgs) := by
  induction imgs using List.reverseRecOn with
  | nil => simp [buildGroups]
  | append_singleton l x ih =>
    rw [buildGroups_snoc]
    exact addToGroups_pairwise_keys x ih

theorem flushBlocks_cons (cnum : Nat) (allImgs : List ImageAsset) (k : Nat)
    (gs : List ImageAsset) (rest : List (Nat × List ImageAsset)) :
    flushBlocks cnum allImgs ((k, gs) :: rest)
      = addImagesBlocks cnum gs ((slideTitlesLookup allImgs k).getD (defaultSlideTitle k))
        ++ flushBlocks cnum allImgs rest := by
  simp [flushBlocks]

theorem flushBlocks_mem_decomp (cnum : Nat) (allImgs : List ImageAsset) :
    ∀ (pend : List (Nat × List ImageAsset)) (sn : Nat) (g : List ImageAsset),
      (sn, g) ∈ pend →
      ∃ P Q, flushBlocks cnum allImgs pend
        = P ++ addImagesBlocks cnum g
            ((slideTitlesLookup allImgs sn).getD (defaultSlideTitle sn)) ++ Q
  | [], _, _, hmem => absurd hmem (List.not_mem_nil _)
  | (k, gs) :: rest, sn, g, hmem => by
    rw [flushBlocks_cons]
    rcases List.mem_cons.mp hmem with heq | hmem2
    · rw [Prod.mk.injEq] at heq
      refine ⟨[], flushBlocks cnum allImgs rest, ?_⟩
      rw [heq.1, heq.2]
      simp
    · obtain ⟨P, Q, hPQ⟩ := flushBlocks_mem_decomp cnum allImgs rest sn g hmem2
      refine ⟨addImagesBlocks cnum gs
        ((slideTitlesLookup allImgs k).getD (defaultSlideTitle k)) ++ P, Q, ?_⟩
      rw [hPQ]
      simp [List.append_assoc]

theorem flushBlocks_paired (cnum : Nat) (allImgs : List ImageAsset) :
    ∀ pend, pairedBlocks cnum (flushBlocks cnum allImgs pend)
  | [] => pairedBlocks_nil cnum
  | (k, gs) :: rest => by
    rw [flushBlocks_cons]
    exact pairedBlocks_append (pairedBlocks_addImagesBlocks cnum gs _)
      (flushBlocks_paired cnum allImgs rest)

theorem processSections_paired (cnum : Nat) (sns : List Nat) (allImgs : List ImageAsset) :
    ∀ (secs : List (List Char)) (i : Nat) (pend : List (Nat × List ImageAsset)),
      pairedBlocks cnum (processSections cnum sns allImgs i secs pend).1
  | [], _, _ => by
    rw [processSections_nil]
    exact pairedBlocks_nil cnum
  | sec :: rest, i, pend => by
    by_cases hb : stripWs sec = []
    · rw [processSections_cons_blank _ _ _ _ _ _ _ hb]
      exact processSections_paired cnum sns allImgs rest (i + 1) pend
    · obtain ⟨l0, restLines, hsp⟩ : ∃ a b, splitNl (stripWs sec) = a :: b := by
        cases hq : splitNl (stripWs sec) with
        | nil => exact absurd hq (splitNl_ne_nil _)
        | cons a b => exact ⟨a, b, rfl⟩
      rw [processSections_cons_ne _ _ _ _ _ _ _ hb hsp]
      have hheadNI : ∀ a w h,
          parseMarkdownParagraph (hh2 ++ stripWs l0) ≠ Block.image a w h := by
        intro a w h hc
        rcases parse_heading_or_para (hh2 ++ stripWs l0) with ⟨lv, t, hp⟩ | ⟨t, hp⟩ <;>
          rw [hp] at hc <;> simp at hc
      exact pairedBlocks_cons_nonimage hheadNI
        (pairedBlocks_append
          (pairedBlocks_append (sectionImgStep_fst_paired cnum allImgs _ _ pend)
            (pairedBlocks_of_no_images (sectionParas_no_images restLines)))
          (processSections_paired cnum sns allImgs rest (i + 1) _))

theorem processSections_firstReach (cnum : Nat) (sns : List Nat) (allImgs : List ImageAsset) :
    ∀ (secs : List (List Char)) (i : Nat) (pend : List (Nat × List ImageAsset))
      (sn : Nat) (g : List ImageAsset) (sec : List Char),
      List.Pairwise (fun p q => p.1 ≠ q.1) pend →
      (sn, g) ∈ pend → sn ≠ 0 →
      firstReach sns sn i secs = some sec →
      ∃ P Q, (processSections cnum sns allImgs i secs pend).1
        = P ++ parseMarkdownParagraph (hh2 ++ stripWs (sectionHeadLine sec))
            :: (addImagesBlocks cnum g
                 ((slideTitlesLookup allImgs sn).getD (stripWs (sectionHeadLine sec))) ++ Q)
  | [], i, pend, sn, g, sec, _, _, _, hreach => by
    rw [firstReach] at hreach
    exact absurd hreach (by simp)
  | sec2 :: rest, i, pend, sn, g, sec, hdist, hmem, h0, hreach => by
    by_cases hb : stripWs sec2 = []
    · rw [firstReach, if_pos hb] at hreach
      rw [processSections_cons_blank _ _ _ _ _ _ _ hb]
      exact processSections_firstReach cnum sns allImgs rest (i + 1) pend sn g sec
        hdist hmem h0 hreach
    · obtain ⟨l0, restLines, hsp⟩ : ∃ a b, splitNl (stripWs sec2) = a :: b := by
        cases hq : splitNl (stripWs sec2) with
        | nil => exact absurd hq (splitNl_ne_nil _)
        | cons a b => exact ⟨a, b, rfl⟩
      by_cases hcs : csnAt sns i = some sn
      · rw [firstReach, if_neg hb, if_pos hcs] at hreach
        injection hreach with hsec
        subst hsec
        rw [processSections_cons_ne _ _ _ _ _ _ _ hb hsp, hcs,
          sectionImgStep_hit cnum allImgs sn (stripWs l0) pend g h0
            (lookupGroup_of_mem hdist hmem)]
        have hsl : sectionHeadLine sec2 = l0 := by rw [sectionHeadLine, hsp]
        refine ⟨[], sectionParas restLines
          ++ (processSections cnum sns allImgs (i + 1) rest (eraseGroup pend sn)).1, ?_⟩
        rw [hsl]
        simp [List.append_assoc]
      · rw [firstReach, if_neg hb, if_neg hcs] at hreach
        rw [processSections_cons_ne _ _ _ _ _ _ _ hb hsp]
        have hkeep : (sn, g)
            ∈ (sectionImgStep cnum allImgs (csnAt sns i) (stripWs l0) pend).2 :=
          sectionImgStep_pend_keep hmem (Or.inl hcs)
        have hdist2 : List.Pairwise (fun p q => p.1 ≠ q.1)
            (sectionImgStep cnum allImgs (csnAt sns i) (stripWs l0) pend).2 :=
          hdist.sublist (sectionImgStep_pend_sublist cnum allImgs _ _ pend)
        obtain ⟨P, Q, hPQ⟩ := processSections_firstReach cnum sns allImgs rest (i + 1)
          (sectionImgStep cnum allImgs (csnAt sns i) (stripWs l0) pend).2 sn g sec
          hdist2 hkeep h0 hreach
        refine ⟨parseMarkdownParagraph (hh2 ++ stripWs l0)
            :: (sectionImgStep cnum allImgs (csnAt sns i) (stripWs l0) pend).1
            ++ sectionParas restLines ++ P, Q, ?_⟩
        rw [hPQ]
        simp [List.append_assoc]

theorem processSections_noReach (cnum : Nat) (sns : List Nat) (allImgs : List ImageAsset) :
    ∀ (secs : List (List Char)) (i : Nat) (pend : List (Nat × List ImageAsset))
      (sn : Nat) (g : List ImageAsset),
      (sn, g) ∈ pend →
      (firstReach sns sn i secs = none ∨ sn = 0) →
      (sn, g) ∈ (processSections cnum sns allImgs i secs pend).2
  | [], i, pend, sn, g, hmem, _ => by
    rw [processSections_nil]
    exact hmem
  | sec2 :: rest, i, pend, sn, g, hmem, hor => by
    by_cases hb : stripWs sec2 = []
    · rw [processSections_cons_blank _ _ _ _ _ _ _ hb]
      refine processSections_noReach cnum sns allImgs rest (i + 1) pend sn g hmem ?_
      rcases hor with hn | h0
      · rw [firstReach, if_pos hb] at hn
        exact Or.inl hn
      · exact Or.inr h0
    · obtain ⟨l0, restLines, hsp⟩ : ∃ a b, splitNl (stripWs sec2) = a :: b := by
        cases hq : splitNl (stripWs sec2) with
        | nil => exact absurd hq (splitNl_ne_nil _)
        | cons a b => exact ⟨a, b, rfl⟩
      rw [processSections_cons_ne _ _ _ _ _ _ _ hb hsp]
      have hcond : csnAt sns i ≠ some sn ∨ sn = 0 := by
        rcases hor with hn | h0
        · rw [firstReach, if_neg hb] at hn
          by_cases hcs : csnAt sns i = some sn
          · rw [if_pos hcs] at hn
            exact absurd hn (by simp)
          · exact Or.inl hcs
        · exact Or.inr h0
      have hrest : firstReach sns sn (i + 1) rest = none ∨ sn = 0 := by
        rcases hor with hn | h0
        · rw [firstReach, if_neg hb] at hn
          by_cases hcs : csnAt sns i = some sn
          · rw [if_pos hcs] at hn
            exact absurd hn (by simp)
          · rw [if_neg hcs] at hn
            exact Or.inl hn
        · exact Or.inr h0
      exact processSections_noReach cnum sns allImgs rest (i + 1) _ sn g
        (sectionImgStep_pend_keep hmem hcond) hrest

/-- C1: for every grouped chapter handed to `_process_grouped_chapter_content`:
(1) conservation — the image assets of the output block sequence are a
permutation of the chapter's image list, so every image appears exactly once
and none is dropped; (2) pairing — every image block is immediately followed
by its caption block (built by `captionText` from the image's own diagram
flag) and a spacer; (3) every image/caption run immediately follows a
heading or sits in the chapter-end flush suffix (`wellPlaced`); (4) every
image belongs to the `images_by_slide` bucket of its own originating slide
number, and (5) an emitted run carries exactly its bucket's images in order;
(6) placement — for every bucket whose slide number is truthy and reached
during section processing (`firstReach` returns the first non-blank section
positionally associated with it), the output places that bucket's image run
immediately after that section's re-emitted `'## '` heading block; (7) flush
— a bucket whose slide number is never reached (or is 0) is emitted inside
the chapter-end flush with the `"Slide {n}"` caption fallback; and (8) when
the chapter's image list is ordered by slide number (the grouping
invariant), the flushed images keep their original relative order. -/
theorem c1_grouped_image_conservation (cnum : Nat) (sns : List Nat) (imgs : List ImageAsset)
    (text : List Char) :
    List.Perm (imagesOfBlocks (processGroupedChapterContent cnum sns imgs text)) imgs
    ∧ pairedBlocks cnum (processGroupedChapterContent cnum sns imgs text)
    ∧ wellPlaced (processGroupedChapterContent cnum sns imgs text) = true
    ∧ (∀ a ∈ imgs, ∃ g, (a.slideNumber, g) ∈ buildGroups imgs ∧ a ∈ g)
    ∧ (∀ (g : List ImageAsset) (t : List Char),
        imagesOfBlocks (addImagesBlocks cnum g t) = g)
    ∧ (∀ (sn : Nat) (g : List ImageAsset), (sn, g) ∈ buildGroups imgs → sn ≠ 0 →
        ∀ sec, firstReach sns sn 0 (splitOnSep hh2 text) = some sec →
        ∃ P Q, processGroupedChapterContent cnum sns imgs text
          = P ++ parseMarkdownParagraph (hh2 ++ stripWs (sectionHeadLine sec))
              :: (addImagesBlocks cnum g
                   ((slideTitlesLookup imgs sn).getD (stripWs (sectionHeadLine sec))) ++ Q))
    ∧ (∀ (sn : Nat) (g : List ImageAsset), (sn, g) ∈ buildGroups imgs →
        (firstReach sns sn 0 (splitOnSep hh2 text) = none ∨ sn = 0) →
        ∃ P Q, flushBlocks cnum imgs (groupedSplit cnum sns imgs text).2
          = P ++ addImagesBlocks cnum g
              ((slideTitlesLookup imgs sn).getD (defaultSlideTitle sn)) ++ Q)
    ∧ (List.Pairwise (fun a b => a.slideNumber ≤ b.slideNumber) imgs →
        List.Sublist
          (imagesOfBlocks (flushBlocks cnum imgs (groupedSplit cnum sns imgs text).2))
          imgs) := by
  refine ⟨processGrouped_images_perm cnum sns imgs text, ?_, ?_,
    buildGroups_mem_self imgs, fun g t => imagesOf_addImagesBlocks cnum g t, ?_, ?_, ?_⟩
  · rw [processGroupedChapterContent, groupedSplit]
    exact pairedBlocks_append (processSections_paired cnum sns imgs _ 0 _)
      (flushBlocks_paired cnum imgs _)
  · rw [processGroupedChapterContent, groupedSplit]
    have hfl : invTail (flushBlocks cnum imgs
        (processSections cnum sns imgs 0 (splitOnSep hh2 text) (buildGroups imgs)).2) :=
      ⟨all_ics_wellPlaced _ (flushBlocks_all_ics _ _ _),
       Or.inr (Or.inr (flushBlocks_all_ics _ _ _))⟩
    exact (processSections_invTail cnum sns imgs (splitOnSep hh2 text) 0 (buildGroups imgs)
      _ hfl).1
  · intro sn g hmem h0 sec hreach
    obtain ⟨P, Q, hPQ⟩ := processSections_firstReach cnum sns imgs (splitOnSep hh2 text) 0
      (buildGroups imgs) sn g sec (buildGroups_pairwise_keys imgs) hmem h0 hreach
    refine ⟨P, Q ++ flushBlocks cnum imgs (groupedSplit cnum sns imgs text).2, ?_⟩
    rw [processGroupedChapterContent, groupedSplit, hPQ]
    simp [List.append_assoc]
  · intro sn g hmem hor
    exact flushBlocks_mem_decomp cnum imgs _ sn g
      (by rw [groupedSplit]
          exact processSections_noReach cnum sns imgs _ 0 _ sn g hmem hor)
  · intro hsorted
    rw [flushBlocks_images]
    have h2 : List.Sublist (groupedSplit cnum sns imgs text).2 (buildGroups imgs) := by
      rw [groupedSplit]
      exact processSections_pend_sublist cnum sns imgs (splitOnSep hh2 text) 0
        (buildGroups imgs)
    have h3 := groupsFlatten_sublist h2
    rwa [(buildGroups_sorted imgs hsorted).1] at h3

/-- Closed instance of `c1_grouped_image_conservation` at a two-image chapter:
conservation and pairing hold; the slide-4 bucket `[B]` is reached at the
third section (`"Two"`), and the theorem's placement conjunct puts its image
run right after that section's heading; the slide-sortedness hypothesis of
the flush-order conjunct is discharged by evaluation. -/
theorem c1_grouped_image_conservation_witness :
    List.Perm
      (imagesOfBlocks (processGroupedChapterContent 1 [3, 4]
        [⟨1, 3, "A".data, false, 10, 10⟩, ⟨2, 4, "B".data, true, 20, 20⟩]
        "intro\n## One\n## Two".data))
      [⟨1, 3, "A".data, false, 10, 10⟩, ⟨2, 4, "B".data, true, 20, 20⟩]
    ∧ pairedBlocks 1 (processGroupedChapterContent 1 [3, 4]
        [⟨1, 3, "A".data, false, 10, 10⟩, ⟨2, 4, "B".data, true, 20, 20⟩]
        "intro\n## One\n## Two".data)
    ∧ (4, [⟨2, 4, "B".data, true, 20, 20⟩])
        ∈ buildGroups [⟨1, 3, "A".data, false, 10, 10⟩, ⟨2, 4, "B".data, true, 20, 20⟩]
    ∧ firstReach [3, 4] 4 0 (splitOnSep hh2 "intro\n## One\n## Two".data)
        = some "Two".data
    ∧ (∃ P Q, processGroupedChapterContent 1 [3, 4]
        [⟨1, 3, "A".data, false, 10, 10⟩, ⟨2, 4, "B".data, true, 20, 20⟩]
        "intro\n## One\n## Two".data
        = P ++ parseMarkdownParagraph (hh2 ++ stripWs (sectionHeadLine "Two".data))
            :: (addImagesBlocks 1 [⟨2, 4, "B".data, true, 20, 20⟩]
                 ((slideTitlesLookup
                    [⟨1, 3, "A".data, false, 10, 10⟩, ⟨2, 4, "B".data, true, 20, 20⟩]
                    4).getD (stripWs (sectionHeadLine "Two".data))) ++ Q))
    ∧ List.Sublist
        (imagesOfBlocks (flushBlocks 1
          [⟨1, 3, "A".data, false, 10, 10⟩, ⟨2, 4, "B".data, true, 20, 20⟩]
          (groupedSplit 1 [3, 4]
            [⟨1, 3, "A".data, false, 10, 10⟩, ⟨2, 4, "B".data, true, 20, 20⟩]
            "intro\n## One\n## Two".data).2))
        [⟨1, 3, "A".data, false, 10, 10⟩, ⟨2, 4, "B".data, true, 20, 20⟩] :=
  ⟨(c1_grouped_image_conservation 1 [3, 4]
      [⟨1, 3, "A".data, false, 10, 10⟩, ⟨2, 4, "B".data, true, 20, 20⟩]
      "intro\n## One\n## Two".data).1,
   (c1_grouped_image_conservation 1 [3, 4]
      [⟨1, 3, "A".data, false, 10, 10⟩, ⟨2, 4, "B".data, true, 20, 20⟩]
      "intro\n## One\n## Two".data).2.1,
   by decide,
   by decide,
   (c1_grouped_image_conservation 1 [3, 4]
      [⟨1, 3, "A".data, false, 10, 10⟩, ⟨2, 4, "B".data, true, 20, 20⟩]
      "intro\n## One\n## Two".data).2.2.2.2.2.1 4 [⟨2, 4, "B".data, true, 20, 20⟩]
      (by decide) (by decide) "Two".data (by decide),
   (c1_grouped_image_conservation 1 [3, 4]
      [⟨1, 3, "A".data, false, 10, 10⟩, ⟨2, 4, "B".data, true, 20, 20⟩]
      "intro\n## One\n## Two".data).2.2.2.2.2.2.2 (by decide)⟩

/-! ### Claims C4 and C10: structure of normalized lines -/

/-- Whitespace characters other than the plain space and the newline (tab,
carriage return, vertical tab, form feed): the characters for which the
heading-title cleanup of `_clean_ai_response` is not stable. -/
def isBadWs (c : Char) : Bool := isSpaceChar c && !(c == ' ') && !(c == '\n')

/-- Absence of exotic whitespace. -/
def noBad (l : List Char) : Prop := ∀ c ∈ l, isBadWs c = false

theorem dropWhile_eq_self_of_head {p : Char → Bool} :
    ∀ {l : List Char}, (∀ a, l.head? = some a → p a = false) → l.dropWhile p = l
  | [], _ => rfl
  | c :: cs, h => by
    rw [List.dropWhile_cons, h c rfl]
    simp

theorem lstripWs_eq_self_of_head {l : List Char}
    (h : ∀ a, l.head? = some a → isSpaceChar a = false) : lstripWs l = l :=
  dropWhile_eq_self_of_head h

theorem rstripWs_eq_self (l : List Char)
    (h : ∀ c, l.getLast? = some c → isSpaceChar c = false) : rstripWs l = l := by
  rw [rstripWs]
  cases hl : l.reverse with
  | nil =>
    rw [List.reverse_eq_nil_iff] at hl
    simp [hl]
  | cons c cs =>
    have hc : l.getLast? = some c := by
      rw [← List.head?_reverse, hl]
      rfl
    rw [List.dropWhile_cons, h c hc]
    simp only [Bool.false_eq_true, if_false]
    rw [← hl, List.reverse_reverse]

theorem rstripWs_append_space (A : List Char) : rstripWs (A ++ [' ']) = rstripWs A := by
  rw [rstripWs, rstripWs, List.reverse_append]
  rfl

theorem getLast?_replicate_hash (k : Nat) (hk : 1 ≤ k) :
    (List.replicate k '#').getLast? = some '#' := by
  cases k with
  | zero => omega
  | succ m =>
    rw [List.replicate_succ', List.getLast?_concat]

theorem rstripWs_replicate_hash (k : Nat) :
    rstripWs (List.replicate k '#') = List.replicate k '#' := by
  apply rstripWs_eq_self
  intro c hc
  cases k with
  | zero => simp at hc
  | succ m =>
    rw [getLast?_replicate_hash (m + 1) (by omega)] at hc
    injection hc with hc
    rw [← hc]
    rfl

theorem rstripWs_bare_heading (k : Nat) :
    rstripWs (List.replicate k '#' ++ [' ']) = List.replicate k '#' := by
  rw [rstripWs_append_space, rstripWs_replicate_hash]

theorem getLast?_append_ne_nil (A : List Char) {B : List Char} (hB : B ≠ []) :
    (A ++ B).getLast? = B.getLast? := by
  cases hb : B.reverse with
  | nil =>
    rw [List.reverse_eq_nil_iff] at hb
    exact absurd hb hB
  | cons c cs =>
    have hBeq : B = cs.reverse ++ [c] := by
      have := congrArg List.reverse hb
      rw [List.reverse_reverse] at this
      simpa using this
    rw [hBeq, ← List.append_assoc, List.getLast?_concat, List.getLast?_concat]

theorem rstripWs_heading_cons (k : Nat) (t : List Char) (ht : stripWs t = t)
    (htne : t ≠ []) :
    rstripWs (List.replicate k '#' ++ ' ' :: t) = List.replicate k '#' ++ ' ' :: t := by
  apply rstripWs_eq_self
  intro c hc
  rw [show (' ' :: t) = [' '] ++ t from rfl, ← List.append_assoc,
    getLast?_append_ne_nil _ htne] at hc
  exact stripWs_getLast_not_space t (ht.symm ▸ hc)

theorem stripWs_subset {l : List Char} : ∀ c ∈ stripWs l, c ∈ l := by
  intro c hc
  rw [stripWs, rstripWs] at hc
  have h1 : c ∈ (lstripWs l).reverse.dropWhile isSpaceChar := by
    simpa using hc
  have h2 : c ∈ (lstripWs l).reverse := (List.dropWhile_sublist _).subset h1
  rw [List.mem_reverse] at h2
  exact (List.dropWhile_sublist _).subset h2

theorem noBad_sub {l m : List Char} (hsub : ∀ c ∈ l, c ∈ m) (hm : noBad m) : noBad l :=
  fun c hc => hm c (hsub c hc)

theorem noBad_stripWs {l : List Char} (h : noBad l) : noBad (stripWs l) :=
  noBad_sub stripWs_subset h

theorem mem_joinNl {c : Char} :
    ∀ {ls : List (List Char)}, c ∈ joinNl ls → (∃ l ∈ ls, c ∈ l) ∨ c = '\n'
  | [], h => by simp [joinNl] at h
  | [a], h => Or.inl ⟨a, by simp, by simpa [joinNl] using h⟩
  | a :: b :: rest, h => by
    rw [joinNl] at h
    rcases List.mem_append.mp h with h1 | h1
    · exact Or.inl ⟨a, by simp, h1⟩
    · rcases List.mem_cons.mp h1 with h2 | h2
      · exact Or.inr h2
      · rcases mem_joinNl h2 with ⟨l, hl, hcl⟩ | h3
        · exact Or.inl ⟨l, List.mem_cons_of_mem a hl, hcl⟩
        · exact Or.inr h3

theorem noBad_joinNl {ls : List (List Char)} (h : ∀ l ∈ ls, noBad l) :
    noBad (joinNl ls) := by
  intro c hc
  rcases mem_joinNl hc with ⟨l, hl, hcl⟩ | h1
  · exact h l hl c hcl
  · rw [h1]
    rfl

theorem noBad_removePhrases {t : List Char} (h : noBad t) : noBad (removePhrases t) := by
  rw [removePhrases]
  generalize unwantedPhrases = ps
  induction ps generalizing t with
  | nil => exact h
  | cons p rest ih =>
    rw [List.foldl_cons]
    by_cases hp : hasPrefixL (lowerL p) (lowerL t) = true
    · rw [if_pos hp]
      refine ih ?_
      refine noBad_sub ?_ h
      intro c hc
      have h2 := (List.dropWhile_sublist _).subset hc
      exact List.drop_subset _ _ (stripWs_subset c h2)
    · rw [if_neg hp]
      exact ih h

theorem dropIntroLine_cases (t l0 : List Char) (rest : List (List Char))
    (hsp : splitNl t = l0 :: rest) :
    dropIntroLine t
      = if (':' ∈ l0) ∧ l0.length < 100 ∧ (stripWs l0).getLast? = some ':' then
          stripWs (joinNl rest)
        else t := by
  rw [dropIntroLine, hsp]

theorem noBad_dropIntroLine {t : List Char} (h : noBad t) : noBad (dropIntroLine t) := by
  cases hsp : splitNl t with
  | nil => exact absurd hsp (splitNl_ne_nil t)
  | cons l0 rest =>
    rw [dropIntroLine_cases t l0 rest hsp]
    by_cases hcond : (':' ∈ l0) ∧ l0.length < 100 ∧ (stripWs l0).getLast? = some ':'
    · rw [if_pos hcond]
      refine noBad_stripWs (noBad_joinNl ?_)
      intro l hl c hc
      exact h c (mem_of_mem_splitNl (hsp ▸ List.mem_cons_of_mem l0 hl) hc)
    · rw [if_neg hcond]
      exact h

theorem countHash_cons_hash (cs : List Char) : countHash ('#' :: cs) = countHash cs + 1 := by
  rw [countHash, countHash, List.takeWhile_cons]
  simp

theorem countHash_replicate_append (k : Nat) (t : List Char) :
    countHash (List.replicate k '#' ++ ' ' :: t) = k := by
  induction k with
  | zero => simp [countHash, List.takeWhile_cons]
  | succ m ih =>
    rw [List.replicate_succ, List.cons_append, countHash_cons_hash, ih]

theorem countHash_replicate (k : Nat) : countHash (List.replicate k '#') = k := by
  induction k with
  | zero => rfl
  | succ m ih => rw [List.replicate_succ, countHash_cons_hash, ih]

theorem hasPrefix_hash_elim {s : List Char} (h : hasPrefixL ['#'] s = true) :
    ∃ cs, s = '#' :: cs := by
  cases s with
  | nil => simp [hasPrefixL] at h
  | cons c cs =>
    rw [hasPrefixL] at h
    simp only [Bool.and_eq_true, beq_iff_eq] at h
    exact ⟨cs, by rw [← h.1]⟩

theorem fixLine_eq_some {l out : List Char} (h : fixLine l = some out) :
    stripWs l ≠ [] ∧
    ((hasPrefixL ['#'] (stripWs l) = true ∧
       out = List.replicate (min (countHash (stripWs l)) 4) '#' ++ ' ' ::
         stripWs (lstripSet colonSpace (stripWs ((stripWs l).drop (countHash (stripWs l))))))
     ∨ (hasPrefixL ['#'] (stripWs l) = false ∧ out = stripWs l)) := by
  simp only [fixLine] at h
  by_cases h1 : stripWs l = []
  · rw [if_pos h1] at h
    simp at h
  · rw [if_neg h1] at h
    refine ⟨h1, ?_⟩
    by_cases h2 : hasPrefixL ['#'] (stripWs l) = true
    · rw [if_pos h2] at h
      injection h with h
      exact Or.inl ⟨h2, h.symm⟩
    · rw [if_neg h2] at h
      injection h with h
      exact Or.inr ⟨by simpa using h2, h.symm⟩

theorem fixLine_form {l out : List Char} (hnl : ('\n' : Char) ∉ l)
    (h : fixLine l = some out) :
    (∃ k t, 1 ≤ k ∧ k ≤ 4 ∧ out = List.replicate k '#' ++ ' ' :: t ∧ stripWs t = t
      ∧ ('\n' : Char) ∉ t ∧ (noBad l → lstripSet colonSpace t = t))
    ∨ (stripWs out = out ∧ out ≠ [] ∧ hasPrefixL ['#'] out = false
        ∧ ('\n' : Char) ∉ out) := by
  obtain ⟨hne, hcase⟩ := fixLine_eq_some h
  rcases hcase with ⟨hpre, hout⟩ | ⟨hpre, hout⟩
  · left
    have hsubz : ∀ c ∈ lstripSet colonSpace (stripWs ((stripWs l).drop
        (countHash (stripWs l)))), c ∈ l := by
      intro c hc
      have h2 := (List.dropWhile_sublist _).subset hc
      have h3 := stripWs_subset _ h2
      have h4 := List.drop_subset _ _ h3
      exact stripWs_subset _ h4
    refine ⟨min (countHash (stripWs l)) 4,
      stripWs (lstripSet colonSpace (stripWs ((stripWs l).drop (countHash (stripWs l))))),
      ?_, ?_, hout, stripWs_idem _, ?_, ?_⟩
    · obtain ⟨cs, hcs⟩ := hasPrefix_hash_elim hpre
      have hk1 : 1 ≤ countHash (stripWs l) := by
        rw [hcs, countHash_cons_hash]
        omega
      omega
    · omega
    · intro hmem
      exact hnl (hsubz _ (stripWs_subset _ hmem))
    · intro hnb
      cases hT2 : stripWs (lstripSet colonSpace (stripWs ((stripWs l).drop
          (countHash (stripWs l))))) with
      | nil => rfl
      | cons c cs2 =>
        apply dropWhile_eq_self_of_head
        intro a ha
        simp only [List.head?_cons, Option.some.injEq] at ha
        subst ha
        cases hz : lstripSet colonSpace (stripWs ((stripWs l).drop
            (countHash (stripWs l)))) with
        | nil =>
          rw [hz] at hT2
          simp [stripWs, lstripWs, rstripWs] at hT2
        | cons d ds =>
          have hdc : (fun c => colonSpace.contains c) d = false :=
            dropWhile_head_false (p := fun c => colonSpace.contains c)
              (by rw [← lstripSet, hz])
          have hdl : d ∈ l := hsubz d (by rw [hz]; exact List.mem_cons_self d ds)
          have hdsp : isSpaceChar d = false := by
            have hdb : isBadWs d = false := hnb d hdl
            have hdnl : ¬(d = '\n') := fun hdd => hnl (hdd ▸ hdl)
            have hdns : ¬(d = ' ') := by
              intro hdd
              rw [hdd] at hdc
              simp [colonSpace, List.contains] at hdc
            rw [isBadWs] at hdb
            cases hsp2 : isSpaceChar d with
            | false => rfl
            | true =>
              rw [hsp2] at hdb
              simp only [Bool.true_and, Bool.and_eq_false_iff, Bool.not_eq_false',
                beq_iff_eq] at hdb
              rcases hdb with hdb | hdb
              · exact absurd hdb hdns
              · exact absurd hdb hdnl
          have hlz : lstripWs (d :: ds) = d :: ds :=
            lstripWs_cons_of_neg hdsp ds
          have hT3 : stripWs (d :: ds) = c :: cs2 := by
            rw [← hz, hT2]
          rw [stripWs, hlz] at hT3
          have hhd := head?_rstripWs (d :: ds) (by rw [hT3]; simp)
          rw [hT3] at hhd
          simp only [List.head?_cons, Option.some.injEq] at hhd
          rw [hhd]
          exact hdc
  · right
    rw [hout]
    refine ⟨stripWs_idem l, hne, hpre, ?_⟩
    intro hmem
    exact hnl (stripWs_subset _ hmem)

theorem dropIntroLine_of_condFalse {t : List Char} (h : introCondB t = false) :
    dropIntroLine t = t := by
  cases hsp : splitNl t with
  | nil => exact absurd hsp (splitNl_ne_nil t)
  | cons l0 rest =>
    rw [dropIntroLine_cases t l0 rest hsp, if_neg]
    intro hc
    obtain ⟨h1, h2, h3⟩ := hc
    rw [introCondB, hsp] at h
    simp [h1, h2, h3] at h

theorem fixLine_congr {a b : List Char} (h : stripWs a = stripWs b) :
    fixLine a = fixLine b := by
  simp only [fixLine, h]

/-- Shape of a line produced by the per-line formatting loop: a normalized
heading with `1..4` marker characters followed by a space and a stripped
title, or a stripped non-heading line. -/
def lineBase (out : List Char) : Prop :=
  (∃ k t, 1 ≤ k ∧ k ≤ 4 ∧ out = List.replicate k '#' ++ ' ' :: t ∧ stripWs t = t
    ∧ ('\n' : Char) ∉ t)
  ∨ (stripWs out = out ∧ out ≠ [] ∧ hasPrefixL ['#'] out = false ∧ ('\n' : Char) ∉ out)

/-- `lineBase` strengthened, in the heading case, by the title being free of
leading colon-space characters (holds when the input has no exotic
whitespace). -/
def fixedLine (out : List Char) : Prop :=
  (∃ k t, 1 ≤ k ∧ k ≤ 4 ∧ out = List.replicate k '#' ++ ' ' :: t ∧ stripWs t = t
    ∧ ('\n' : Char) ∉ t ∧ lstripSet colonSpace t = t)
  ∨ (stripWs out = out ∧ out ≠ [] ∧ hasPrefixL ['#'] out = false ∧ ('\n' : Char) ∉ out)

theorem fixedLine_base {out : List Char} (h : fixedLine out) : lineBase out := by
  rcases h with ⟨k, t, h1, h2, h3, h4, h5, h6⟩ | h
  · exact Or.inl ⟨k, t, h1, h2, h3, h4, h5⟩
  · exact Or.inr h

theorem lineBase_ne_nil {out : List Char} (h : lineBase out) : out ≠ [] := by
  rcases h with ⟨k, t, h1, h2, h3, h4, h5⟩ | ⟨h1, h2, h3, h4⟩
  · obtain ⟨k', rfl⟩ : ∃ k', k = k' + 1 := ⟨k - 1, by omega⟩
    rw [h3, List.replicate_succ, List.cons_append]
    exact List.cons_ne_nil _ _
  · exact h2

theorem lineBase_no_nl {out : List Char} (h : lineBase out) : ('\n' : Char) ∉ out := by
  rcases h with ⟨k, t, h1, h2, h3, h4, h5⟩ | ⟨h1, h2, h3, h4⟩
  · rw [h3]
    intro hm
    rcases List.mem_append.mp hm with hm | hm
    · exact absurd (List.eq_of_mem_replicate hm) (by decide)
    · rcases List.mem_cons.mp hm with hm | hm
      · exact absurd hm (by decide)
      · exact h5 hm
  · exact h4

theorem lineBase_head {out : List Char} (h : lineBase out) :
    ∀ c, out.head? = some c → isSpaceChar c = false := by
  intro c hc
  rcases h with ⟨k, t, h1, h2, h3, h4, h5⟩ | ⟨h1, h2, h3, h4⟩
  · obtain ⟨k', rfl⟩ : ∃ k', k = k' + 1 := ⟨k - 1, by omega⟩
    rw [h3, List.replicate_succ, List.cons_append] at hc
    simp only [List.head?_cons, Option.some.injEq] at hc
    subst hc
    decide
  · cases hout : out with
    | nil => exact absurd hout h2
    | cons d ds =>
      rw [hout] at hc
      simp only [List.head?_cons, Option.some.injEq] at hc
      subst hc
      exact stripWs_head_not_space out (by rw [← hout, h1])

theorem lineBase_lstrip {out : List Char} (h : lineBase out) : lstripWs out = out :=
  lstripWs_eq_self_of_head (lineBase_head h)

theorem lineBase_rstrip_ne {out : List Char} (h : lineBase out) : rstripWs out ≠ [] := by
  rcases h with ⟨k, t, h1, h2, h3, h4, h5⟩ | ⟨h1, h2, h3, h4⟩
  · cases ht : t with
    | nil =>
      rw [h3, ht, rstripWs_bare_heading]
      intro hc
      rw [List.eq_nil_iff_forall_not_mem] at hc
      obtain ⟨k', rfl⟩ : ∃ k', k = k' + 1 := ⟨k - 1, by omega⟩
      exact hc '#' (List.mem_replicate.mpr ⟨by omega, rfl⟩)
    | cons d ds =>
      rw [h3, rstripWs_heading_cons k t h4 (by rw [ht]; exact List.cons_ne_nil _ _)]
      intro hc
      simp at hc
  · intro hc
    rw [← h1, rstripWs_stripWs] at hc
    rw [h1] at hc
    exact h2 hc

theorem stripWs_rstripWs (l : List Char)
    (h : ∀ c, l.head? = some c → isSpaceChar c = false) :
    stripWs (rstripWs l) = stripWs l := by
  have hl : lstripWs l = l := lstripWs_eq_self_of_head h
  cases hr : rstripWs l with
  | nil =>
    rw [stripWs, stripWs, hl, hr]
    simp [lstripWs, rstripWs]
  | cons c cs =>
    have hh : (rstripWs l).head? = l.head? := head?_rstripWs l (by rw [hr]; simp)
    have hl2 : lstripWs (c :: cs) = c :: cs := by
      rw [← hr]
      exact lstripWs_eq_self_of_head (fun a ha => h a (hh ▸ ha))
    rw [stripWs, stripWs, hl, hl2, ← hr, rstripWs_rstripWs]

theorem fixLine_eval (l : List Char) :
    fixLine l = if stripWs l = [] then none
      else if hasPrefixL ['#'] (stripWs l) then
        some (List.replicate (min (countHash (stripWs l)) 4) '#' ++ ' ' ::
          stripWs (lstripSet colonSpace (stripWs ((stripWs l).drop (countHash (stripWs l))))))
      else some (stripWs l) := rfl

theorem drop_replicate_self (c : Char) : ∀ k, (List.replicate k c).drop k = []
  | 0 => rfl
  | k + 1 => by rw [List.replicate_succ, List.drop_succ_cons, drop_replicate_self c k]

theorem lstripWs_space_cons (t : List Char) : lstripWs (' ' :: t) = lstripWs t := by
  simp only [lstripWs, List.dropWhile_cons]
  rw [if_pos (by decide)]

theorem lstripWs_of_stripWs_eq {t : List Char} (h : stripWs t = t) : lstripWs t = t := by
  conv_lhs => rw [← h]
  rw [lstripWs_stripWs, h]

theorem rstripWs_of_stripWs_eq {t : List Char} (h : stripWs t = t) : rstripWs t = t := by
  conv_lhs => rw [← h]
  rw [rstripWs_stripWs, h]

theorem stripWs_space_cons {t : List Char} (h : stripWs t = t) : stripWs (' ' :: t) = t := by
  rw [stripWs, lstripWs_space_cons, lstripWs_of_stripWs_eq h, rstripWs_of_stripWs_eq h]

theorem stripWs_heading {k : Nat} {t : List Char} (hk : 1 ≤ k) (h4 : stripWs t = t) :
    stripWs (List.replicate k '#' ++ ' ' :: t)
      = if t = [] then List.replicate k '#' else List.replicate k '#' ++ ' ' :: t := by
  obtain ⟨k', rfl⟩ : ∃ k', k = k' + 1 := ⟨k - 1, by omega⟩
  have hL : lstripWs (List.replicate (k' + 1) '#' ++ ' ' :: t)
      = List.replicate (k' + 1) '#' ++ ' ' :: t := by
    rw [List.replicate_succ, List.cons_append]
    exact lstripWs_cons_of_neg (by decide) _
  cases t with
  | nil =>
    rw [if_pos rfl, stripWs, hL, rstripWs_bare_heading]
  | cons d ds =>
    rw [if_neg (by simp), stripWs, hL,
      rstripWs_heading_cons _ _ h4 (by simp)]

theorem fixedLine_fixLine {out : List Char} (h : fixedLine out) : fixLine out = some out := by
  rcases h with ⟨k, t, h1, h2, h3, h4, h5, h6⟩ | ⟨h1, h2, h3, h4⟩
  · subst h3
    rw [fixLine_eval, stripWs_heading h1 h4]
    by_cases ht : t = []
    · subst ht
      rw [if_pos rfl]
      obtain ⟨k', rfl⟩ : ∃ k', k = k' + 1 := ⟨k - 1, by omega⟩
      rw [if_neg (by simp), if_pos (by rw [List.replicate_succ]; simp [hasPrefixL]),
        countHash_replicate, Nat.min_eq_left h2, drop_replicate_self]
      rfl
    · rw [if_neg ht]
      obtain ⟨k', rfl⟩ : ∃ k', k = k' + 1 := ⟨k - 1, by omega⟩
      rw [if_neg (by simp),
        if_pos (by rw [List.replicate_succ, List.cons_append]; simp [hasPrefixL]),
        countHash_replicate_append, Nat.min_eq_left h2, List.drop_left' (by simp),
        stripWs_space_cons h4, h6, h4]
  · rw [fixLine_eval, h1, if_neg h2, if_neg (by simp [h3])]

theorem fixedLine_fixLine_rstrip {out : List Char} (h : fixedLine out) :
    fixLine (rstripWs out) = some out := by
  rw [fixLine_congr (stripWs_rstripWs out (lineBase_head (fixedLine_base h)))]
  exact fixedLine_fixLine h

theorem head?_joinNl (o : List Char) (rest : List (List Char)) (ho : o ≠ []) :
    (joinNl (o :: rest)).head? = o.head? := by
  cases rest with
  | nil => rfl
  | cons b bs =>
    cases o with
    | nil => exact absurd rfl ho
    | cons c cs => rfl

theorem joinNl_snoc (front : List (List Char)) (a : List Char) (hf : front ≠ []) :
    joinNl (front ++ [a]) = joinNl front ++ '\n' :: a := by
  induction front with
  | nil => exact absurd rfl hf
  | cons o rest ih =>
    cases rest with
    | nil => simp [joinNl]
    | cons b bs =>
      calc joinNl ((o :: b :: bs) ++ [a])
          = o ++ '\n' :: joinNl ((b :: bs) ++ [a]) := rfl
        _ = o ++ '\n' :: (joinNl (b :: bs) ++ '\n' :: a) := by rw [ih (by simp)]
        _ = (o ++ '\n' :: joinNl (b :: bs)) ++ '\n' :: a := by simp
        _ = joinNl (o :: b :: bs) ++ '\n' :: a := rfl

theorem filterMap_fixLine_id {os : List (List Char)} (h : ∀ o ∈ os, fixLine o = some o) :
    List.filterMap fixLine os = os := by
  induction os with
  | nil => rfl
  | cons o rest ih =>
    simp only [List.filterMap_cons, h o (List.mem_cons_self o rest),
      ih (fun x hx => h x (List.mem_cons_of_mem _ hx))]

theorem fixLine_base {l out : List Char} (hnl : ('\n' : Char) ∉ l)
    (h : fixLine l = some out) : lineBase out := by
  rcases fixLine_form hnl h with ⟨k, t, h1, h2, h3, h4, h5, _⟩ | h
  · exact Or.inl ⟨k, t, h1, h2, h3, h4, h5⟩
  · exact Or.inr h

theorem cleanAiResponse_lines (x : List Char) (hne : cleanAiResponse x ≠ []) :
    ∃ outs : List (List Char), outs ≠ [] ∧ cleanAiResponse x = joinNl outs ∧
      (∀ out ∈ outs, lineBase out) ∧ (noBad x → ∀ out ∈ outs, fixedLine out) := by
  by_cases hx : x = []
  · rw [cleanAiResponse, if_pos hx] at hne
    exact absurd hx hne
  · have hcl : cleanAiResponse x
        = joinNl (fixLines (splitNl (dropIntroLine (removePhrases (stripWs x))))) := by
      rw [cleanAiResponse, if_neg hx]
    refine ⟨fixLines (splitNl (dropIntroLine (removePhrases (stripWs x)))), ?_, hcl, ?_, ?_⟩
    · intro h0
      rw [hcl, h0] at hne
      exact hne rfl
    · intro out hout
      rw [fixLines] at hout
      obtain ⟨line, hline, hfix⟩ := List.mem_filterMap.mp hout
      exact fixLine_base (not_nl_mem_splitNl hline) hfix
    · intro hnb out hout
      rw [fixLines] at hout
      obtain ⟨line, hline, hfix⟩ := List.mem_filterMap.mp hout
      have hz : noBad (dropIntroLine (removePhrases (stripWs x))) :=
        noBad_dropIntroLine (noBad_removePhrases (noBad_stripWs hnb))
      have hnbl : noBad line := fun c hc => hz c (mem_of_mem_splitNl hline hc)
      rcases fixLine_form (not_nl_mem_splitNl hline) hfix with
        ⟨k, t, h1, h2, h3, h4, h5, h6⟩ | h
      · exact Or.inl ⟨k, t, h1, h2, h3, h4, h5, h6 hnbl⟩
      · exact Or.inr h

theorem mem_rstripWs {c : Char} {l : List Char} (h : c ∈ rstripWs l) : c ∈ l := by
  rw [rstrip_decomp l]
  exact List.mem_append_left _ h

theorem stripWs_joinNl_concat (front : List (List Char)) (a : List Char)
    (hbase : ∀ out ∈ front ++ [a], lineBase out) :
    stripWs (joinNl (front ++ [a])) = joinNl (front ++ [rstripWs a]) := by
  have hba : lineBase a := hbase a (by simp)
  cases front with
  | nil =>
    show stripWs a = rstripWs a
    rw [stripWs, lineBase_lstrip hba]
  | cons o rest =>
    have hfne : (o :: rest) ≠ [] := by simp
    rw [joinNl_snoc _ a hfne, joinNl_snoc _ (rstripWs a) hfne]
    have hra : rstripWs ('\n' :: a) = '\n' :: rstripWs a := by
      have h1 : ('\n' : Char) :: a = ['\n'] ++ a := rfl
      rw [h1, rstripWs_append _ _ (lineBase_rstrip_ne hba)]
      rfl
    have hone : o ≠ [] := lineBase_ne_nil (hbase o (by simp))
    have hhead : (joinNl (o :: rest) ++ '\n' :: a).head? = o.head? := by
      rw [← joinNl_snoc _ a hfne]
      have h2 : (o :: rest) ++ [a] = o :: (rest ++ [a]) := rfl
      rw [h2, head?_joinNl o _ hone]
    have hL : lstripWs (joinNl (o :: rest) ++ '\n' :: a)
        = joinNl (o :: rest) ++ '\n' :: a :=
      lstripWs_eq_self_of_head
        (fun c hc => lineBase_head (hbase o (by simp)) c (hhead ▸ hc))
    rw [stripWs, hL, rstripWs_append _ _ (by rw [hra]; simp), hra]

/-- C4: the normalization `_clean_ai_response` is NOT idempotent: on the
input `"A:\nB:\nC"` one application yields `"B:\nC"` (the first line is
dropped as leftover intro text because it ends with a colon), and a second
application drops another line, yielding `"C"`. -/
theorem c4_idempotence_counterexample :
    cleanAiResponse (cleanAiResponse "A:\nB:\nC".data)
      ≠ cleanAiResponse "A:\nB:\nC".data := by decide

/-- C4 (amended): normalization IS idempotent on inputs whose whitespace is
limited to spaces and newlines, provided the first normalization's output
does not itself begin with one of the fixed preamble phrases and its first
line does not match the intro-line-removal condition (contains a colon, is
shorter than 100 characters, and ends with a colon after stripping). Under
these side conditions a second application of `_clean_ai_response` returns
its input unchanged. -/
theorem c4_idempotence_amended (x : List Char) (hb : noBad x)
    (hp : removePhrases (stripWs (cleanAiResponse x)) = stripWs (cleanAiResponse x))
    (hi : introCondB (stripWs (cleanAiResponse x)) = false) :
    cleanAiResponse (cleanAiResponse x) = cleanAiResponse x := by
  by_cases hy : cleanAiResponse x = []
  · rw [hy]
    simp [cleanAiResponse]
  · obtain ⟨outs, hone, hjoin, hbase, hfull⟩ := cleanAiResponse_lines x hy
    have hfix := hfull hb
    obtain ⟨front, a, rfl⟩ : ∃ front a, outs = front ++ [a] := by
      rcases List.eq_nil_or_concat outs with h | ⟨L, b, h⟩
      · exact absurd h hone
      · exact ⟨L, b, by rw [h, List.concat_eq_append]⟩
    have hstrip : stripWs (cleanAiResponse x) = joinNl (front ++ [rstripWs a]) := by
      rw [hjoin]
      exact stripWs_joinNl_concat front a hbase
    have hnl2 : ∀ s ∈ front ++ [rstripWs a], ('\n' : Char) ∉ s := by
      intro s hs
      rcases List.mem_append.mp hs with hs | hs
      · exact lineBase_no_nl (hbase s (List.mem_append_left _ hs))
      · rw [List.mem_singleton.mp hs]
        intro hm
        exact lineBase_no_nl (hbase a (by simp)) (mem_rstripWs hm)
    have hfneq : front ++ [rstripWs a] ≠ [] := by simp
    have hfrontfix : ∀ o ∈ front, fixLine o = some o :=
      fun o ho => fixedLine_fixLine (hfix o (List.mem_append_left _ ho))
    have hmain : cleanAiResponse (cleanAiResponse x) = joinNl (front ++ [a]) := by
      conv_lhs => rw [cleanAiResponse]
      rw [if_neg hy, hp, dropIntroLine_of_condFalse hi, hstrip,
        splitNl_joinNl _ hnl2 hfneq, fixLines, List.filterMap_append,
        filterMap_fixLine_id hfrontfix]
      have hlast : List.filterMap fixLine [rstripWs a] = [a] := by
        simp [List.filterMap_cons, fixedLine_fixLine_rstrip (hfix a (by simp))]
      rw [hlast]
    rw [hmain, ← hjoin]

/-- Closed-form instance of the amended C4 idempotence: the side conditions
hold for the already well-formed input `"## Title\nBody text"`, on which a
second normalization is a no-op. -/
theorem c4_idempotence_amended_witness :
    noBad "## Title\nBody text".data ∧
    removePhrases (stripWs (cleanAiResponse "## Title\nBody text".data))
      = stripWs (cleanAiResponse "## Title\nBody text".data) ∧
    introCondB (stripWs (cleanAiResponse "## Title\nBody text".data)) = false ∧
    cleanAiResponse (cleanAiResponse "## Title\nBody text".data)
      = cleanAiResponse "## Title\nBody text".data := by
  refine ⟨by unfold noBad; decide, by decide, by decide, ?_⟩
  exact c4_idempotence_amended _ (by unfold noBad; decide) (by decide) (by decide)

/-- A bare normalized heading: `1..4` marker characters and a trailing
space with an empty title. -/
def isBareHeadingB (l : List Char) : Bool :=
  (List.range 4).any (fun k => decide (l = List.replicate (k + 1) '#' ++ [' ']))

/-- Line well-formedness after normalization: non-empty, no leading
whitespace, and no trailing whitespace unless the line is a bare heading. -/
def lineOkB (l : List Char) : Bool :=
  (!l.isEmpty) && decide (lstripWs l = l)
    && (decide (rstripWs l = l) || isBareHeadingB l)

/-- `lineOkB` on every line. -/
def linesOk (ls : List (List Char)) : Bool := ls.all lineOkB

/-- C10: the normalized output is NOT always free of trailing whitespace:
the input `"#"` normalizes to `"# "` (heading fix-up appends a space even
when the title is empty), whose single line ends in a space. -/
theorem c10_line_whitespace_counterexample :
    cleanAiResponse "#".data = "# ".data ∧
    rstripWs (cleanAiResponse "#".data) ≠ cleanAiResponse "#".data := by decide

/-- C10 (amended): every line of a non-empty normalized output is non-empty
(blank lines are removed, so paragraph structure is not recoverable from
blank separators) and carries no leading whitespace; it also carries no
trailing whitespace except that a bare heading is emitted as `1..4` marker
characters followed by a single trailing space. -/
theorem c10_line_structure_amended (x : List Char) (hne : cleanAiResponse x ≠ []) :
    linesOk (splitNl (cleanAiResponse x)) = true := by
  obtain ⟨outs, hone, hjoin, hbase, _⟩ := cleanAiResponse_lines x hne
  have hnl : ∀ s ∈ outs, ('\n' : Char) ∉ s := fun s hs => lineBase_no_nl (hbase s hs)
  rw [hjoin, splitNl_joinNl outs hnl hone, linesOk, List.all_eq_true]
  intro out hout
  have hb := hbase out hout
  rw [lineOkB]
  have h1 : (!out.isEmpty) = true := by
    have hno := lineBase_ne_nil hb
    cases out with
    | nil => exact absurd rfl hno
    | cons c cs => rfl
  have h2 : decide (lstripWs out = out) = true := decide_eq_true (lineBase_lstrip hb)
  rw [h1, h2, Bool.true_and, Bool.true_and]
  rcases hb with ⟨k, t, hk1, hk2, hout3, ht, hnlT⟩ | ⟨hs, hne2, hpre, hnl2⟩
  · cases t with
    | nil =>
      rw [Bool.or_eq_true]
      right
      rw [isBareHeadingB, List.any_eq_true]
      refine ⟨k - 1, List.mem_range.mpr (by omega), ?_⟩
      show decide (out = List.replicate (k - 1 + 1) '#' ++ [' ']) = true
      exact decide_eq_true (by rw [show k - 1 + 1 = k by omega, hout3])
    | cons d ds =>
      rw [Bool.or_eq_true]
      left
      exact decide_eq_true
        (by rw [hout3]; exact rstripWs_heading_cons k (d :: ds) ht (by simp))
  · rw [Bool.or_eq_true]
    left
    exact decide_eq_true (rstripWs_of_stripWs_eq hs)

/-- Closed-form instance of the amended C10 line structure: the input
`"a\n\nb"` has a blank separator line; the normalized output `"a\nb"` has
only non-empty fully stripped lines. -/
theorem c10_line_structure_amended_witness :
    cleanAiResponse "a\n\nb".data ≠ [] ∧
    linesOk (splitNl (cleanAiResponse "a\n\nb".data)) = true :=
  ⟨by decide, c10_line_structure_amended _ (by decide)⟩
